import Mathlib

/-! # alia: component storage, event routing and memoized application

A shallow embedding of

* `src/alia/components/storage.hpp` (`generic_component_storage` and its accessors),
* `src/alia/flow/events.cpp` (`scoped_routing_region`, `invoke_controller`, `route_event`),
* the behaviour of `apply`, `lazy_apply`, `lift` and `for_each` that
  `unit_tests/signals/application.cpp` and `unit_tests/flow/for_each.cpp` exercise,
* `is_prime` of `examples/asm-dom/demos/application.cpp`,

followed by the properties proved about them.
-/

namespace alia

/-! ## Conditions raised by the code -/

/-- The conditions a call can raise: `std::out_of_range` (from `unordered_map::at`),
`traversal_aborted` (from `abort_traversal`), and any other thrown object. -/
inductive exception where
  | out_of_range
  | traversal_aborted
  | other (code : Nat)
  deriving DecidableEq, Repr

/-! ## Component storage (`alia/components/storage.hpp`) -/

/-- The key `std::type_index(typeid(Tag))` of a tag type. -/
abbrev type_index := Nat

/-- `generic_component_storage<Data>`: its only member is
`std::unordered_map<std::type_index, Data> components`, a finite map with at most one entry per
key and no meaningful order, here an association list with pairwise distinct keys. -/
structure generic_component_storage (Data : Type) where
  components : AList (fun _ : type_index => Data)

/-- The number of entries of the map, `storage.components.size()`. -/
def generic_component_storage.size {Data : Type} (storage : generic_component_storage Data) :
    Nat :=
  storage.components.keys.length

/-- `has_storage_component<Tag>(storage)`:
`storage.components.find(type_index(typeid(Tag))) != storage.components.end()`. -/
def has_storage_component {Data : Type} (Tag : type_index)
    (storage : generic_component_storage Data) : Bool :=
  (storage.components.lookup Tag).isSome

/-- `add_storage_component<Tag>(storage, data)`:
`storage.components[type_index(typeid(Tag))] = data`; `operator[]` creates the entry when the key
is absent and the assignment overwrites the mapped value. -/
def add_storage_component {Data : Type} (Tag : type_index)
    (storage : generic_component_storage Data) (data : Data) : generic_component_storage Data :=
  { components := storage.components.insert Tag data }

/-- `remove_storage_component<Tag>(storage)`: `storage.components.erase(key)`. -/
def remove_storage_component {Data : Type} (Tag : type_index)
    (storage : generic_component_storage Data) : generic_component_storage Data :=
  { components := storage.components.erase Tag }

/-- `get_storage_component<Tag>(storage)`: `storage.components.at(key)`, which raises
`std::out_of_range` when the key is absent. The storage is passed by reference, so the storage
after the call is returned next to the result. -/
def get_storage_component {Data : Type} (Tag : type_index)
    (storage : generic_component_storage Data) :
    Except exception Data × generic_component_storage Data :=
  match storage.components.lookup Tag with
  | some data => (Except.ok data, storage)
  | none => (Except.error exception.out_of_range, storage)

/-! ## Event routing (`alia/flow/events.cpp`) -/

/-- The address of a `routing_region` object. -/
abbrev region_id := Nat

/-- The `parent` member (a `routing_region_ptr`) of every routing region, by address; an empty
pointer is `none`. -/
abbrev region_store := region_id → Option region_id

/-- The part of the data graph (`system::data`) that events.cpp reads and writes: the routing
regions stored in it. -/
structure data_graph where
  regions : region_store

/-- The value of `event_traversal::event_type`, a `std::type_info const*`. -/
inductive event_type_id where
  | refresh_event
  | other_event (n : Nat)
  deriving DecidableEq, Repr

/-- The members of `event_traversal` used by events.cpp. `path_to_target` is the linked list of
`event_routing_path` nodes, `node` first and then `rest`; the null pointer is `[]`. -/
structure event_traversal where
  active_region : Option region_id
  targeted : Bool
  path_to_target : List region_id
  event_type : event_type_id
  deriving DecidableEq, Repr

/-- The members of a `scoped_routing_region`; `traversal_` records whether the pointer is set. -/
structure scoped_routing_region where
  parent_ : Option region_id
  is_relevant_ : Bool
  traversal_ : Bool
  deriving DecidableEq, Repr

/-- `scoped_routing_region::begin(ctx)`. `get_data(ctx, &region)` is outside this file: the region
it hands back is the argument `region`, and `is_new` is its return value (true when the slot was
just created, in which case `region->reset(new routing_region)` gives it an empty parent). Every
member of the scoped object is assigned, so the object before the call is not an argument. -/
def scoped_routing_region.begin (regions : region_store) (traversal : event_traversal)
    (region : region_id) (is_new : Bool) :
    region_store × event_traversal × scoped_routing_region :=
  let regions1 : region_store := if is_new then Function.update regions region none else regions
  let regions2 : region_store :=
    match traversal.active_region with
    | some active =>
      if regions1 region ≠ some active then Function.update regions1 region (some active)
      else regions1
    | none => Function.update regions1 region none
  let parent_ := traversal.active_region
  let traversal1 : event_traversal := { traversal with active_region := some region }
  if traversal1.targeted then
    match traversal1.path_to_target with
    | node :: rest =>
      if node = region then
        (regions2, { traversal1 with path_to_target := rest },
          { parent_ := parent_, is_relevant_ := true, traversal_ := true })
      else
        (regions2, traversal1, { parent_ := parent_, is_relevant_ := false, traversal_ := true })
    | [] =>
      (regions2, traversal1, { parent_ := parent_, is_relevant_ := false, traversal_ := true })
  else
    (regions2, traversal1, { parent_ := parent_, is_relevant_ := true, traversal_ := true })

/-- `scoped_routing_region::end()`; `traversal` is the object `traversal_` points to. -/
def scoped_routing_region.end_ (self : scoped_routing_region) (traversal : event_traversal) :
    scoped_routing_region × event_traversal :=
  if self.traversal_ then
    ({ self with traversal_ := false }, { traversal with active_region := self.parent_ })
  else
    (self, traversal)

/-- The members of `data_traversal` set by `invoke_controller`. -/
structure data_traversal where
  gc_enabled : Bool
  cache_clearing_enabled : Bool
  deriving DecidableEq, Repr

/-- The `timing_subsystem` component. -/
structure timing_subsystem where
  tick_counter : Nat
  deriving DecidableEq, Repr

/-- What `make_context(&storage, sys, events, data, timing)` bundles for the controller. -/
structure context where
  graph : data_graph
  events : event_traversal
  data : data_traversal
  timing : timing_subsystem

/-- What a run of the controller leaves behind: everything it did (`effects`), and the condition
it raised, if it ended by raising one. -/
structure controller_outcome (ρ : Type) where
  effects : ρ
  raised : Option exception

/-- The `system` of system.hpp. `tick_source` is `external`: `none` for the null pointer, else
the value its `get_tick_count()` returns. -/
structure system (ρ : Type) where
  data : data_graph
  controller : context → controller_outcome ρ
  refresh_needed : Bool
  tick_source : Option Nat

/-- `invoke_controller(sys, events)`; `default_tick_count` is what `get_default_tick_count()`
returns. -/
def invoke_controller {ρ : Type} (default_tick_count : Nat) (sys : system ρ)
    (events : event_traversal) : controller_outcome ρ :=
  let is_refresh : Bool := decide (events.event_type = event_type_id.refresh_event)
  let data : data_traversal := { gc_enabled := is_refresh, cache_clearing_enabled := is_refresh }
  let timing : timing_subsystem :=
    { tick_counter :=
        match sys.tick_source with
        | some ticks => ticks
        | none => default_tick_count }
  let ctx : context := { graph := sys.data, events := events, data := data, timing := timing }
  sys.controller ctx

/-- `impl::route_event_(sys, traversal, target)`. The recursion follows `target->parent`, which
need not end when the parent links form a cycle, so the depth is bounded by `fuel`; `none` means
the bound was reached. -/
def route_event_ {ρ : Type} (default_tick_count : Nat) :
    Nat → system ρ → event_traversal → Option region_id → Option (controller_outcome ρ)
  | _, sys, traversal, none => some (invoke_controller default_tick_count sys traversal)
  | 0, _, _, some _ => none
  | fuel + 1, sys, traversal, some target =>
    route_event_ default_tick_count fuel sys
      { traversal with path_to_target := target :: traversal.path_to_target }
      (sys.data.regions target)

/-- `impl::route_event(sys, traversal, target)`: `traversal_aborted` is caught, anything else
propagates. -/
def route_event {ρ : Type} (default_tick_count : Nat) (fuel : Nat) (sys : system ρ)
    (traversal : event_traversal) (target : Option region_id) : Option (controller_outcome ρ) :=
  match route_event_ default_tick_count fuel sys traversal target with
  | none => none
  | some outcome =>
    match outcome.raised with
    | some exception.traversal_aborted => some { outcome with raised := none }
    | _ => some outcome

/-! ### Controllers that enter nested routing regions -/

/-- The routing regions a controller enters, as a forest in first-child / next-sibling form:
`node region is_new children siblings` is
`{ scoped_routing_region r; r.begin(ctx); children; r.end(); } siblings`. -/
inductive region_forest where
  | nil
  | node (region : region_id) (is_new : Bool) (children : region_forest)
      (siblings : region_forest)
  deriving DecidableEq, Repr

/-- The regions of a forest, in the order they are entered. -/
def region_forest.ids : region_forest → List region_id
  | .nil => []
  | .node region _ children siblings => region :: (children.ids ++ siblings.ids)

/-- The state after entering a forest of regions, with the regions begun so far, in order, each
with the `is_relevant_` that its `begin` set. -/
structure region_walk where
  regions : region_store
  traversal : event_traversal
  entered : List (region_id × Bool)

/-- Run `begin`, the nested regions, `end`, and then the following regions. -/
def enter_regions : region_forest → region_store → event_traversal → region_walk
  | .nil, regions, traversal => { regions := regions, traversal := traversal, entered := [] }
  | .node region is_new children siblings, regions, traversal =>
    let begun := scoped_routing_region.begin regions traversal region is_new
    let inner := enter_regions children begun.1 begun.2.1
    let ended := begun.2.2.end_ inner.traversal
    let after := enter_regions siblings inner.regions ended.2
    { regions := after.regions
      traversal := after.traversal
      entered := (region, begun.2.2.is_relevant_) :: (inner.entered ++ after.entered) }

/-- The controller whose body enters the regions of `forest`. -/
def region_controller (forest : region_forest) (ctx : context) : controller_outcome region_walk :=
  { effects := enter_regions forest ctx.graph.regions ctx.events, raised := none }

/-- The parent links `regions` record the nesting of `forest` under `parent`: every region of the
forest has as parent the region it is nested in (none for an outermost one). -/
def nested_as_recorded (regions : region_store) : Option region_id → region_forest → Prop
  | _, .nil => True
  | parent, .node region _ children siblings =>
    regions region = parent ∧ nested_as_recorded regions (some region) children
      ∧ nested_as_recorded regions parent siblings

/-- The list `chain` is `start`, its parent, its grandparent, ... up to a region without parent:
the parent chain from `start` ends (is acyclic). -/
def is_parent_chain (regions : region_store) : Option region_id → List region_id → Prop
  | none, [] => True
  | some start, first :: chain => first = start ∧ is_parent_chain regions (regions start) chain
  | none, _ :: _ => False
  | some _, [] => False

/-! ## Memoized application (`apply`), as exercised by `unit_tests/signals/application.cpp` -/

/-- A signal as the tests observe it: `value` is `none` when `signal_has_value` is false,
`value_id` is what `value_id()` returns. -/
structure signal (ι α : Type) where
  value : Option α
  value_id : ι
  deriving DecidableEq, Repr

/-- `signal_has_value(s)`. -/
def signal_has_value {ι α : Type} (s : signal ι α) : Bool :=
  s.value.isSome

/-- `value(x)`: a signal that always has the value `x`, identified by the value itself. -/
def value {α : Type} (x : α) : signal α α :=
  { value := some x, value_id := x }

/-- `empty<T>()`: a signal that never has a value. -/
def empty {ι α : Type} [Inhabited ι] : signal ι α :=
  { value := none, value_id := default }

/-- The memoization record inside a data-graph node: last-seen input value identities,
last-computed output value and last-computed output value identity. -/
structure apply_record (ι β : Type) where
  input_ids : List ι
  result : β
  result_id : Nat
  deriving DecidableEq, Repr

/-- What one call of `apply` leaves behind: the node's record after the call, the signal it
returns, how many times the wrapped function was invoked, and the condition that leaves the
call, if one does. -/
structure apply_outcome (ι β : Type) where
  node : Option (apply_record ι β)
  result : signal Nat β
  calls : Nat
  raised : Option exception

/-- Modelled from the spec: `apply(ctx, f, signals...)` of alia/signals/application.hpp, which is
not among the sources (only its tests are). `node` is the record found at this traversal
position (`none` on the first visit). The result has a value only when every input has one,
otherwise `f` is not invoked and nothing else happens. The record is reused without invoking `f`
exactly when every input identity equals the stored one; on recomputation the output identity
is fresh, and when `f` raises the signal has no value for that traversal, the raised condition
propagates to the caller (`raised`, the condition that leaves `apply`) and the record keeps its
previous state. -/
def apply {ι α β : Type} [DecidableEq ι] (node : Option (apply_record ι β))
    (f : List α → Except exception β) (inputs : List (signal ι α)) : apply_outcome ι β :=
  let previous_id : Nat :=
    match node with
    | some record => record.result_id
    | none => 0
  if inputs.all signal_has_value then
    let ids := inputs.map (fun s => s.value_id)
    let args := inputs.filterMap (fun s => s.value)
    let fresh_id : Nat :=
      match node with
      | some record => record.result_id + 1
      | none => 0
    let unchanged : Bool :=
      match node with
      | some record => decide (record.input_ids = ids)
      | none => false
    if unchanged then
      match node with
      | some record =>
        { node := node, result := { value := some record.result, value_id := record.result_id },
          calls := 0, raised := none }
      | none => { node := node, result := { value := none, value_id := 0 }, calls := 0,
                  raised := none }
    else
      match f args with
      | Except.ok y =>
        { node := some { input_ids := ids, result := y, result_id := fresh_id },
          result := { value := some y, value_id := fresh_id }, calls := 1, raised := none }
      | Except.error e =>
        { node := node, result := { value := none, value_id := previous_id }, calls := 1,
          raised := some e }
  else
    { node := node, result := { value := none, value_id := previous_id }, calls := 0,
      raised := none }

/-- Consecutive traversals that call `apply` at one traversal position: the record left by one
traversal is the one the next traversal finds. `runs` lists the inputs of each traversal. -/
def apply_traversals {ι α β : Type} [DecidableEq ι] (f : List α → Except exception β) :
    Option (apply_record ι β) → List (List (signal ι α)) → List (apply_outcome ι β)
  | _, [] => []
  | node, inputs :: runs =>
    (apply node f inputs) :: apply_traversals f (apply node f inputs).node runs

/-- The number of invocations of the wrapped function over a list of outcomes. -/
def total_calls {ι β : Type} (outcomes : List (apply_outcome ι β)) : Nat :=
  (outcomes.map (fun o => o.calls)).sum

/-! ## Keyed iteration (`for_each`), as exercised by `unit_tests/flow/for_each.cpp` -/

/-- The sequence containers of the tests. A `std::vector` is its elements by position. A
`std::list` is its nodes in link order, each with the address it lives at. -/
inductive container (α : Type) where
  | vector (items : List α)
  | list (nodes : List (Nat × α))
  deriving DecidableEq, Repr

/-- The elements of a container, in iteration order. -/
def container.contents {α : Type} : container α → List α
  | .vector items => items
  | .list nodes => nodes.map Prod.snd

/-- The key of the data-graph child node of an element. -/
inductive node_key (κ : Type) where
  | position (index : Nat)
  | identity (id : κ)
  deriving DecidableEq, Repr

/-- The elements of a list paired with their positions, counted from `start`. -/
def index_from {α : Type} : Nat → List α → List (Nat × α)
  | _, [] => []
  | start, x :: xs => (start, x) :: index_from (start + 1) xs

/-- Modelled from the spec: the key `for_each` (alia/flow/for_each.hpp, not among the sources)
gives each element's node. "Default identity for a sequence element is its position; if the
element type exposes a natural identity accessor, that identity is used instead":
`get_alia_id` is the identity accessor of the element type when it has one. -/
def for_each_keys {κ α : Type} (get_alia_id : Option (α → κ)) :
    container α → List (node_key κ × α)
  | .vector items =>
    (index_from 0 items).map (fun p =>
      match get_alia_id with
      | some id_of => (node_key.identity (id_of p.2), p.2)
      | none => (node_key.position p.1, p.2))
  | .list nodes =>
    (index_from 0 (nodes.map Prod.snd)).map (fun p =>
      match get_alia_id with
      | some id_of => (node_key.identity (id_of p.2), p.2)
      | none => (node_key.position p.1, p.2))

/-- What one `for_each` leaves behind: the child nodes by key, the signals the body produced in
visiting order, and the number of invocations of the memoized function. -/
structure for_each_outcome (κ ι β : Type) where
  nodes : node_key κ → Option (apply_record ι β)
  results : List (signal Nat β)
  calls : Nat

/-- Modelled from the spec: the loop of `for_each` over keyed elements. Each element's body runs
on the child node matched by key (created when there is none), in the order of the collection;
the body is `apply(ctx, f, simplify_id(item))`, the memoized per-element function of the tests,
where `input` picks what of the element is passed on. Pruning of unvisited nodes is the data
graph's work at the end of a refresh and is not part of this loop. -/
def for_each_items {κ α γ β : Type} [DecidableEq κ] [DecidableEq γ]
    (f : List γ → Except exception β) (input : α → γ) :
    (node_key κ → Option (apply_record γ β)) → List (node_key κ × α) → for_each_outcome κ γ β
  | nodes, [] => { nodes := nodes, results := [], calls := 0 }
  | nodes, (key, x) :: rest =>
    let visited := apply (nodes key) f [value (input x)]
    let following := for_each_items f input (Function.update nodes key visited.node) rest
    { nodes := following.nodes
      results := visited.result :: following.results
      calls := visited.calls + following.calls }

/-- Modelled from the spec: `for_each(ctx, direct(collection), body)` over a sequence container,
with the body of the tests. -/
def for_each {κ α γ β : Type} [DecidableEq κ] [DecidableEq γ] (get_alia_id : Option (α → κ))
    (f : List γ → Except exception β) (input : α → γ)
    (nodes : node_key κ → Option (apply_record γ β)) (collection : container α) :
    for_each_outcome κ γ β :=
  for_each_items f input nodes (for_each_keys get_alia_id collection)

/-- The node at `key` holds the record that `apply` leaves for the single input `value c`. -/
def remembers {κ γ β : Type} (g : List γ → β) (nodes : node_key κ → Option (apply_record γ β))
    (key : node_key κ) (c : γ) : Prop :=
  ∃ record, nodes key = some record ∧ record.input_ids = [c] ∧ record.result = g [c]

/-- Every record among the nodes holds the result of the function on the inputs it records, as
every record written by `apply` does (the identity of a `value` signal is its value). -/
def coherent {κ γ β : Type} (g : List γ → β) (nodes : node_key κ → Option (apply_record γ β)) :
    Prop :=
  ∀ key record, nodes key = some record → record.result = g record.input_ids

/-! ## Description functions as sequences of statements -/

/-- A statement of a description function: it changes the state and either completes (`none`)
or raises a condition, which ends the function (stack unwinding). -/
abbrev statement (σ : Type) := σ → σ × Option exception

/-- `abort_traversal(ctx)`: `throw traversal_aborted()`, on every call. -/
def abort_traversal {σ : Type} : statement σ :=
  fun state => (state, some exception.traversal_aborted)

/-- Statements run in order; the first one that raises ends the run, and the statements after
it are not executed. -/
def run_statements {σ : Type} : List (statement σ) → σ → σ × Option exception
  | [], state => (state, none)
  | first :: rest, state =>
    match first state with
    | (state1, none) => run_statements rest state1
    | (state1, some e) => (state1, some e)

/-- The controller whose body is the statements `body`, started in the state `init ctx`. -/
def statement_controller {σ : Type} (init : context → σ) (body : List (statement σ))
    (ctx : context) : controller_outcome σ :=
  { effects := (run_statements body (init ctx)).1, raised := (run_statements body (init ctx)).2 }

/-- Modelled from the spec: `lazy_apply(f, signals...)` of alia/signals/application.hpp, which is
not among the sources. It needs no data-graph node: the signal has a value when every input has
one, reading it applies `f` to the inputs' current values, and its identity combines the
identities of the inputs. -/
def lazy_apply {ι α β : Type} (f : List α → β) (inputs : List (signal ι α)) :
    signal (List ι) β :=
  { value :=
      if inputs.all signal_has_value then some (f (inputs.filterMap (fun s => s.value)))
      else none
    value_id := inputs.map (fun s => s.value_id) }

/-! ## `for_each` over maps and with writable handles -/

/-- `container[key] = value` on a `std::map`, kept as its entries in key order: the entry of an
existing key is overwritten, a new key is inserted at its place in the order. -/
def map_assign {K V : Type} [LinearOrder K] (key : K) (mapped : V) :
    List (K × V) → List (K × V)
  | [] => [(key, mapped)]
  | entry :: rest =>
    if key < entry.1 then (key, mapped) :: entry :: rest
    else if key = entry.1 then (key, mapped) :: rest
    else entry :: map_assign key mapped rest

/-- Modelled from the spec: the key `for_each` gives the node of a map entry, which "is the map
key itself" (`key_id` is `get_alia_id` of the key type, the key itself when it has none). -/
def for_each_map_keys {κ K V : Type} (key_id : K → κ) (entries : List (K × V)) :
    List (node_key κ × (K × V)) :=
  entries.map (fun entry => (node_key.identity (key_id entry.1), entry))

/-- Modelled from the spec: `for_each(ctx, direct(map), body)` over a `std::map`, whose entries
are visited in key order; the counted part of the body is `apply(ctx, f, simplify_id(key))`
with `key_input` picking what of the key is passed on. -/
def for_each_map {κ γ β K V : Type} [DecidableEq κ] [DecidableEq γ] (key_id : K → κ)
    (f : List γ → Except exception β) (key_input : K → γ)
    (nodes : node_key κ → Option (apply_record γ β)) (entries : List (K × V)) :
    for_each_outcome κ γ β :=
  for_each_items f (fun entry : K × V => key_input entry.1) nodes
    (for_each_map_keys key_id entries)

/-- Modelled from the spec: `for_each` with a writable (duplex) element handle. `body` is what
the body writes through the handle of an element holding a given value (`none` when it writes
nothing); the write goes to the backing element of the source collection. -/
def for_each_writing {α : Type} (body : α → Option α) : container α → container α
  | .vector items => .vector (items.map (fun x => (body x).getD x))
  | .list nodes => .list (nodes.map (fun p => (p.1, (body p.2).getD p.2)))

/-! ## `lift` and `lazy_lift` -/

/-- Modelled from the spec: `lift(f)` of alia/signals/application.hpp (not among the sources),
which "adapts an ordinary function into a reusable apply-producing combinator with the same
semantics": the returned combinator, called at a traversal position (`node`) with its inputs,
is a call of `apply` with `f`. -/
def lift {ι α β : Type} [DecidableEq ι] (f : List α → Except exception β) :
    Option (apply_record ι β) → List (signal ι α) → apply_outcome ι β :=
  fun node inputs => apply node f inputs

/-- Modelled from the spec: `lazy_lift(f)`, the combinator that calls `lazy_apply` with `f`. -/
def lazy_lift {ι α β : Type} (f : List α → β) : List (signal ι α) → signal (List ι) β :=
  fun inputs => lazy_apply f inputs

/-! ## Regions open around a region -/

/-- The regions that are open (begun and not yet ended) when `region` is begun in a walk of the
forest, innermost first; `enclosing` lists the regions open around the whole forest. `none`
when the forest does not enter the region. -/
def region_forest.open_around :
    region_forest → List region_id → region_id → Option (List region_id)
  | .nil, _, _ => none
  | .node first _ children siblings, enclosing, region =>
    if region = first then some enclosing
    else
      match children.open_around (first :: enclosing) region with
      | some opened => some opened
      | none => siblings.open_around enclosing region

/-! ## `is_prime` (`examples/asm-dom/demos/application.cpp`) -/

/-- `int(std::round(std::sqrt(n)))` for `n ≥ 0`, taken as the integer nearest to the exact
square root: with `s` the integer part of the root, the root is below `s + 1/2` exactly when
`n ≤ s * s + s`. -/
def round_sqrt (n : Int) : Int :=
  if n.toNat ≤ Nat.sqrt n.toNat * Nat.sqrt n.toNat + Nat.sqrt n.toNat then
    (Nat.sqrt n.toNat : Int)
  else
    (Nat.sqrt n.toNat : Int) + 1

/-- The loop `for (int i = 2; i <= sqrt_n; ++i) if (n % i == 0) return false;` followed by
`return true`, from the current value of `i`. -/
def is_prime_loop (n sqrt_n : Int) (i : Int) : Bool :=
  if i ≤ sqrt_n then
    if n % i = 0 then false
    else is_prime_loop n sqrt_n (i + 1)
  else true
termination_by (sqrt_n + 1 - i).toNat
decreasing_by omega

/-- `is_prime(n)`. An `int` is at most `2^31 - 1`, so `sqrt_n` is at most 46341 and neither
`++i` nor `n % i` can overflow. -/
def is_prime (n : Int) : Bool :=
  if n < 2 then false
  else is_prime_loop n (round_sqrt n) 2

/-! # Properties -/


/-! ## Component storage -/

/-- C7: `get_storage_component` raises `std::out_of_range` exactly when
`has_storage_component` is false for the tag; on an absent tag it returns no value at all, and
it never changes the storage (so it inserts no entry). -/
theorem get_storage_component_fails_iff_absent {Data : Type} (Tag : type_index)
    (storage : generic_component_storage Data) :
    ((get_storage_component Tag storage).1 = Except.error exception.out_of_range
        ↔ has_storage_component Tag storage = false)
      ∧ ((∃ e, (get_storage_component Tag storage).1 = Except.error e)
        ↔ has_storage_component Tag storage = false)
      ∧ (has_storage_component Tag storage = false →
          ∀ data, (get_storage_component Tag storage).1 ≠ Except.ok data)
      ∧ (get_storage_component Tag storage).2 = storage
      ∧ has_storage_component Tag (get_storage_component Tag storage).2
          = has_storage_component Tag storage := by
  unfold get_storage_component has_storage_component
  cases h : storage.components.lookup Tag <;> simp [h]

/-- C8: after `add_storage_component` the storage holds exactly one entry for the tag and
`get_storage_component` returns the data just added; the number of entries is unchanged when
the tag was present and one more when it was absent; the entries of all other tags are
unchanged. -/
theorem add_storage_component_one_entry {Data : Type} (Tag : type_index)
    (storage : generic_component_storage Data) (data : Data) :
    (add_storage_component Tag storage data).components.keys.count Tag = 1
      ∧ has_storage_component Tag (add_storage_component Tag storage data) = true
      ∧ (get_storage_component Tag (add_storage_component Tag storage data)).1 = Except.ok data
      ∧ (has_storage_component Tag storage = true →
          (add_storage_component Tag storage data).size = storage.size)
      ∧ (has_storage_component Tag storage = false →
          (add_storage_component Tag storage data).size = storage.size + 1)
      ∧ (∀ Other, Other ≠ Tag →
          (add_storage_component Tag storage data).components.lookup Other
              = storage.components.lookup Other
            ∧ (get_storage_component Other (add_storage_component Tag storage data)).1
              = (get_storage_component Other storage).1) := by
  refine ⟨?_, ?_, ?_, ?_, ?_, ?_⟩
  · apply List.count_eq_one_of_mem (AList.keys_nodup _)
    simp [add_storage_component, AList.keys_insert]
  · simp [has_storage_component, add_storage_component, AList.lookup_insert]
  · simp [get_storage_component, add_storage_component, AList.lookup_insert]
  · intro h
    have hmem : Tag ∈ storage.components.keys := by
      rw [← AList.mem_keys, ← AList.lookup_isSome]
      simpa [has_storage_component] using h
    have hpos : 0 < storage.components.keys.length := List.length_pos_of_mem hmem
    simp only [generic_component_storage.size, add_storage_component, AList.keys_insert,
      List.length_cons, List.length_erase_of_mem hmem]
    omega
  · intro h
    have hmem : Tag ∉ storage.components.keys := by
      rw [← AList.mem_keys, ← AList.lookup_eq_none]
      simpa [has_storage_component] using h
    simp [generic_component_storage.size, add_storage_component, AList.keys_insert,
      List.erase_of_not_mem hmem]
  · intro Other hne
    have hl : (add_storage_component Tag storage data).components.lookup Other
        = storage.components.lookup Other := by
      simp [add_storage_component, AList.lookup_insert_ne hne]
    refine ⟨hl, ?_⟩
    unfold get_storage_component
    rw [hl]
    cases storage.components.lookup Other <;> rfl

/-! ## `invoke_controller` -/

/-- C3: `invoke_controller` runs the controller once, on a context whose data traversal has
`gc_enabled` and `cache_clearing_enabled` true exactly when the event type is `refresh_event`
and false for every other event type. -/
theorem invoke_controller_gc_iff_refresh {ρ : Type} (default_tick_count : Nat) (sys : system ρ)
    (events : event_traversal) :
    ∃ ctx : context,
      invoke_controller default_tick_count sys events = sys.controller ctx
        ∧ ctx.graph = sys.data ∧ ctx.events = events
        ∧ (ctx.data.gc_enabled = true ↔ events.event_type = event_type_id.refresh_event)
        ∧ (ctx.data.cache_clearing_enabled = true
            ↔ events.event_type = event_type_id.refresh_event)
        ∧ (∀ n, events.event_type = event_type_id.other_event n →
            ctx.data.gc_enabled = false ∧ ctx.data.cache_clearing_enabled = false) := by
  refine ⟨_, rfl, rfl, rfl, ?_, ?_, ?_⟩
  · simp
  · simp
  · intro n hn
    simp [hn]

/-! ## `scoped_routing_region::begin` -/

/-- C9: during a targeted traversal, `begin` marks the region relevant and advances
`path_to_target` to the rest of the path exactly when `path_to_target` is non-empty and its
first node is this region; otherwise it marks the region irrelevant and leaves `path_to_target`
unchanged. -/
theorem begin_targeted_relevant_iff_head (regions : region_store) (traversal : event_traversal)
    (region : region_id) (is_new : Bool) (htargeted : traversal.targeted = true) :
    ((scoped_routing_region.begin regions traversal region is_new).2.2.is_relevant_ = true
        ↔ ∃ rest, traversal.path_to_target = region :: rest)
      ∧ (∀ rest, traversal.path_to_target = region :: rest →
          (scoped_routing_region.begin regions traversal region is_new).2.2.is_relevant_ = true
            ∧ (scoped_routing_region.begin regions traversal region is_new).2.1.path_to_target
              = rest)
      ∧ ((¬ ∃ rest, traversal.path_to_target = region :: rest) →
          (scoped_routing_region.begin regions traversal region is_new).2.2.is_relevant_ = false
            ∧ (scoped_routing_region.begin regions traversal region is_new).2.1.path_to_target
              = traversal.path_to_target) := by
  unfold scoped_routing_region.begin
  cases hp : traversal.path_to_target with
  | nil => simp [htargeted, hp]
  | cons node rest =>
    by_cases hn : node = region
    · simp [htargeted, hp, hn]
    · have hn2 : ¬ region = node := fun h => hn h.symm
      simp [htargeted, hp, hn, hn2]

/-- The statement of C9 at a path `[7, 9]` and region 7. -/
theorem begin_targeted_relevant_iff_head_witness :
    ((scoped_routing_region.begin (fun _ => none)
          { active_region := none, targeted := true, path_to_target := [7, 9],
            event_type := event_type_id.other_event 0 } 7 false).2.2.is_relevant_ = true
        ↔ ∃ rest, [7, 9] = 7 :: rest)
      ∧ (∀ rest, [7, 9] = 7 :: rest →
          (scoped_routing_region.begin (fun _ => none)
              { active_region := none, targeted := true, path_to_target := [7, 9],
                event_type := event_type_id.other_event 0 } 7 false).2.2.is_relevant_ = true
            ∧ (scoped_routing_region.begin (fun _ => none)
              { active_region := none, targeted := true, path_to_target := [7, 9],
                event_type := event_type_id.other_event 0 } 7 false).2.1.path_to_target
              = rest)
      ∧ ((¬ ∃ rest, [7, 9] = 7 :: rest) →
          (scoped_routing_region.begin (fun _ => none)
              { active_region := none, targeted := true, path_to_target := [7, 9],
                event_type := event_type_id.other_event 0 } 7 false).2.2.is_relevant_ = false
            ∧ (scoped_routing_region.begin (fun _ => none)
              { active_region := none, targeted := true, path_to_target := [7, 9],
                event_type := event_type_id.other_event 0 } 7 false).2.1.path_to_target
              = [7, 9]) :=
  begin_targeted_relevant_iff_head (fun _ => none)
    { active_region := none, targeted := true, path_to_target := [7, 9],
      event_type := event_type_id.other_event 0 } 7 false rfl

/-! ## `apply` -/

/-- C6: when at least one input signal of `apply` has no value, the resulting signal has no
value and `f` is not invoked. -/
theorem apply_unready_no_value_no_call {ι α β : Type} [DecidableEq ι]
    (node : Option (apply_record ι β)) (f : List α → Except exception β)
    (inputs : List (signal ι α)) (hunready : ∃ s ∈ inputs, signal_has_value s = false) :
    signal_has_value (apply node f inputs).result = false
      ∧ (apply node f inputs).calls = 0
      ∧ (apply node f inputs).raised = none := by
  have hall : inputs.all signal_has_value = false := by
    rw [List.all_eq_false]
    obtain ⟨s, hs, hv⟩ := hunready
    exact ⟨s, hs, by simp [hv]⟩
  simp [apply, hall, signal_has_value]

/-- The statement of C6 at the inputs of the test "unready apply", `empty<int>()` and
`value(2)`, with `f x y = x * 2 + y`. -/
theorem apply_unready_no_value_no_call_witness :
    signal_has_value (apply (none : Option (apply_record Int Int))
        (fun args => Except.ok (args.headD 0 * 2 + args.getLastD 0))
        [(empty : signal Int Int), value 2]).result = false
      ∧ (apply (none : Option (apply_record Int Int))
        (fun args => Except.ok (args.headD 0 * 2 + args.getLastD 0))
        [(empty : signal Int Int), value 2]).calls = 0
      ∧ (apply (none : Option (apply_record Int Int))
        (fun args => Except.ok (args.headD 0 * 2 + args.getLastD 0))
        [(empty : signal Int Int), value 2]).raised = none :=
  apply_unready_no_value_no_call none _ [empty, value 2] ⟨empty, by simp, rfl⟩

/-- With every input ready and a wrapped function that returns, `apply` leaves a record of the
current input identities, and invokes the function once unless the record it found already held
these identities. -/
theorem apply_ready_total {ι α β : Type} [DecidableEq ι] (node : Option (apply_record ι β))
    (g : List α → β) (inputs : List (signal ι α))
    (hready : inputs.all signal_has_value = true) :
    ((apply node (fun args => Except.ok (g args)) inputs).node.map (fun r => r.input_ids)
        = some (inputs.map (fun s => s.value_id)))
      ∧ (apply node (fun args => Except.ok (g args)) inputs).calls
        = (if node.map (fun r => r.input_ids) = some (inputs.map (fun s => s.value_id))
            then 0 else 1) := by
  cases node with
  | none => simp [apply, hready]
  | some record =>
    by_cases h : record.input_ids = inputs.map (fun s => s.value_id)
    · simp [apply, hready, h]
    · simp [apply, hready, h]

/-- The count of invocations over a run of traversals, for any record found by the first one. -/
theorem apply_traversals_calls {ι α β : Type} [DecidableEq ι] (g : List α → β) :
    ∀ (runs : List (List (signal ι α))) (node : Option (apply_record ι β)),
      (∀ inputs ∈ runs, inputs.all signal_has_value = true) →
      ∀ (k : Nat) (inputs : List (signal ι α)), runs[k]? = some inputs →
        ∃ o, (apply_traversals (fun args => Except.ok (g args)) node runs)[k]? = some o
          ∧ o.calls ≤ 1
          ∧ (o.calls = 1 ↔
              (k = 0 ∧ node.map (fun r => r.input_ids) ≠ some (inputs.map (fun s => s.value_id)))
              ∨ ∃ j previous, k = j + 1 ∧ runs[j]? = some previous
                  ∧ previous.map (fun s => s.value_id) ≠ inputs.map (fun s => s.value_id)) := by
  intro runs
  induction runs with
  | nil => intro node _ k inputs hk; simp at hk
  | cons first rest ih =>
    intro node hready k inputs hk
    have hfirst : first.all signal_has_value = true := hready first (by simp)
    have hrest : ∀ inputs ∈ rest, inputs.all signal_has_value = true :=
      fun i hi => hready i (by simp [hi])
    obtain ⟨hnode, hcalls⟩ := apply_ready_total node g first hfirst
    cases k with
    | zero =>
      simp only [List.getElem?_cons_zero, Option.some.injEq] at hk
      subst hk
      refine ⟨apply node (fun args => Except.ok (g args)) first,
        by simp [apply_traversals], ?_, ?_⟩
      · rw [hcalls]; split <;> omega
      · rw [hcalls]
        by_cases h : node.map (fun r => r.input_ids) = some (first.map (fun s => s.value_id))
        · simp [h]
        · simp [h]
    | succ j =>
      simp only [List.getElem?_cons_succ] at hk
      obtain ⟨o, ho, hle, hiff⟩ := ih _ hrest j inputs hk
      refine ⟨o, by simpa [apply_traversals] using ho, hle, ?_⟩
      rw [hiff, hnode]
      constructor
      · rintro (⟨hj, hne⟩ | ⟨i, previous, hi, hprev, hne⟩)
        · refine Or.inr ⟨j, first, rfl, by simp [hj], ?_⟩
          intro h
          exact hne (by rw [h])
        · exact Or.inr ⟨j, previous, rfl, by simp [hi, hprev], hne⟩
      · rintro (⟨hj, _⟩ | ⟨i, previous, hi, hprev, hne⟩)
        · omega
        · have hij : i = j := by omega
          subst hij
          cases i with
          | zero =>
            simp only [List.getElem?_cons_zero, Option.some.injEq] at hprev
            subst hprev
            exact Or.inl ⟨rfl, fun h => hne (by simpa using h)⟩
          | succ i =>
            simp only [List.getElem?_cons_succ] at hprev
            exact Or.inr ⟨i, previous, rfl, hprev, hne⟩

/-- Repeating inputs whose identities the record already holds invokes nothing. -/
theorem apply_traversals_repeat {ι α β : Type} [DecidableEq ι] (g : List α → β)
    (inputs : List (signal ι α)) (hready : inputs.all signal_has_value = true) :
    ∀ (n : Nat) (node : Option (apply_record ι β)),
      node.map (fun r => r.input_ids) = some (inputs.map (fun s => s.value_id)) →
      total_calls (apply_traversals (fun args => Except.ok (g args)) node
        (List.replicate n inputs)) = 0 := by
  intro n
  induction n with
  | zero => intro node _; simp [apply_traversals, total_calls]
  | succ n ih =>
    intro node hnode
    obtain ⟨hnode1, hcalls⟩ := apply_ready_total node g inputs hready
    have h := ih _ hnode1
    simp only [total_calls] at h
    simp [List.replicate_succ, apply_traversals, total_calls, hcalls, hnode, h]

/-- C2: over consecutive traversals calling `apply` at one traversal position with all inputs
having values (and `f` returning), `f` is invoked in a traversal (once) if and only if it is the
first traversal or the input identities differ from those of the previous traversal; repeating
identical inputs over `n + 1` traversals invokes `f` exactly once in total. -/
theorem apply_invoked_iff_first_or_changed {ι α β : Type} [DecidableEq ι] (g : List α → β)
    (runs : List (List (signal ι α)))
    (hready : ∀ inputs ∈ runs, inputs.all signal_has_value = true) :
    (∀ (k : Nat) (inputs : List (signal ι α)), runs[k]? = some inputs →
        ∃ o, (apply_traversals (fun args => Except.ok (g args)) none runs)[k]? = some o
          ∧ o.calls ≤ 1
          ∧ (o.calls = 1 ↔
              k = 0 ∨ ∃ j previous, k = j + 1 ∧ runs[j]? = some previous
                  ∧ previous.map (fun s => s.value_id) ≠ inputs.map (fun s => s.value_id)))
      ∧ (∀ (n : Nat) (inputs : List (signal ι α)), inputs ∈ runs →
          total_calls (apply_traversals (fun args => Except.ok (g args))
            (none : Option (apply_record ι β)) (List.replicate (n + 1) inputs)) = 1) := by
  constructor
  · intro k inputs hk
    obtain ⟨o, ho, hle, hiff⟩ := apply_traversals_calls g runs none hready k inputs hk
    refine ⟨o, ho, hle, ?_⟩
    rw [hiff]
    simp
  · intro n inputs hmem
    have hr := hready inputs hmem
    obtain ⟨hnode1, hcalls⟩ :=
      apply_ready_total (none : Option (apply_record ι β)) g inputs hr
    have h := apply_traversals_repeat g inputs hr n _ hnode1
    simp only [total_calls] at h
    simp [List.replicate_succ, apply_traversals, total_calls, hcalls, h]

/-- The statement of C2 at the traversals of the test "simple apply": inputs (1, 2), (1, 2),
(2, 2), (2, 2), (2, 3) with `f x y = x * 2 + y`. -/
theorem apply_invoked_iff_first_or_changed_witness :
    (∀ inputs ∈ [[value (1 : Int), value 2], [value 1, value 2], [value 2, value 2],
        [value 2, value 2], [value 2, value 3]], inputs.all signal_has_value = true)
      ∧ ((apply_traversals (fun args => Except.ok (args.headD 0 * 2 + args.getLastD 0)) none
          [[value (1 : Int), value 2], [value 1, value 2], [value 2, value 2],
            [value 2, value 2], [value 2, value 3]]).map (fun o => o.calls) = [1, 0, 1, 0, 1])
      ∧ ((∀ (k : Nat) (inputs : List (signal Int Int)),
          [[value (1 : Int), value 2], [value 1, value 2], [value 2, value 2],
            [value 2, value 2], [value 2, value 3]][k]? = some inputs →
          ∃ o, (apply_traversals
              (fun args => Except.ok ((fun a : List Int => a.headD 0 * 2 + a.getLastD 0) args))
              none
              [[value (1 : Int), value 2], [value 1, value 2], [value 2, value 2],
                [value 2, value 2], [value 2, value 3]])[k]? = some o
            ∧ o.calls ≤ 1
            ∧ (o.calls = 1 ↔
                k = 0 ∨ ∃ j previous, k = j + 1
                  ∧ [[value (1 : Int), value 2], [value 1, value 2], [value 2, value 2],
                      [value 2, value 2], [value 2, value 3]][j]? = some previous
                  ∧ previous.map (fun s => s.value_id) ≠ inputs.map (fun s => s.value_id)))
        ∧ (∀ (n : Nat) (inputs : List (signal Int Int)),
            inputs ∈ [[value (1 : Int), value 2], [value 1, value 2], [value 2, value 2],
              [value 2, value 2], [value 2, value 3]] →
            total_calls (apply_traversals
              (fun args => Except.ok ((fun a : List Int => a.headD 0 * 2 + a.getLastD 0) args))
              (none : Option (apply_record Int Int)) (List.replicate (n + 1) inputs)) = 1)) :=
  ⟨by decide, by decide,
    apply_invoked_iff_first_or_changed (fun a : List Int => a.headD 0 * 2 + a.getLastD 0) _
      (by decide)⟩

/-! ## `for_each` -/

/-- One visit of a node by the body: afterwards the node holds the record of the value. -/
theorem apply_value_node {γ β : Type} [DecidableEq γ] (g : List γ → β)
    (node : Option (apply_record γ β)) (c : γ)
    (hnode : ∀ record, node = some record → record.result = g record.input_ids) :
    ∃ record, (apply node (fun args => Except.ok (g args)) [value c]).node = some record
      ∧ record.input_ids = [c] ∧ record.result = g [c] := by
  cases node with
  | none => simp [apply, value, signal_has_value]
  | some record =>
    by_cases h : record.input_ids = [c]
    · have := hnode record rfl
      rw [h] at this
      simp [apply, value, signal_has_value, h, this]
    · simp [apply, value, signal_has_value, h]

/-- A pass over keyed elements keeps the records coherent. -/
theorem for_each_items_coherent {κ α γ β : Type} [DecidableEq κ] [DecidableEq γ]
    (g : List γ → β) (input : α → γ) :
    ∀ (items : List (node_key κ × α)) (nodes : node_key κ → Option (apply_record γ β)),
      coherent g nodes →
      coherent g (for_each_items (fun args => Except.ok (g args)) input nodes items).nodes := by
  intro items
  induction items with
  | nil => intro nodes h; exact h
  | cons head rest ih =>
    intro nodes h
    obtain ⟨k, x⟩ := head
    simp only [for_each_items]
    apply ih
    intro key record hrec
    by_cases hk : key = k
    · subst hk
      rw [Function.update_same] at hrec
      obtain ⟨r, hr, hids, hres⟩ := apply_value_node g (nodes key) (input x) (h key)
      rw [hr] at hrec
      cases hrec
      rw [hids, hres]
    · rw [Function.update_noteq hk] at hrec
      exact h key record hrec

/-- One visit of a node that already holds the record of the value: nothing is invoked and the
node is left as it was. -/
theorem apply_value_reuse {γ β : Type} [DecidableEq γ] (g : List γ → β)
    (node : Option (apply_record γ β)) (c : γ) (record : apply_record γ β)
    (hnode : node = some record) (hids : record.input_ids = [c]) (hres : record.result = g [c]) :
    (apply node (fun args => Except.ok (g args)) [value c]).node = node
      ∧ (apply node (fun args => Except.ok (g args)) [value c]).calls = 0
      ∧ (apply node (fun args => Except.ok (g args)) [value c]).result.value = some (g [c]) := by
  subst hnode
  simp [apply, value, signal_has_value, hids, hres]

/-- A pass over keyed elements touches no node whose key is not among them. -/
theorem for_each_items_frame {κ α γ β : Type} [DecidableEq κ] [DecidableEq γ]
    (f : List γ → Except exception β) (input : α → γ) :
    ∀ (items : List (node_key κ × α)) (nodes : node_key κ → Option (apply_record γ β))
      (key : node_key κ), key ∉ items.map Prod.fst →
      (for_each_items f input nodes items).nodes key = nodes key := by
  intro items
  induction items with
  | nil => intro nodes key _; rfl
  | cons head rest ih =>
    intro nodes key hkey
    obtain ⟨k, x⟩ := head
    simp only [List.map_cons, List.mem_cons, not_or] at hkey
    simp only [for_each_items]
    rw [ih _ key hkey.2, Function.update_noteq hkey.1]

/-- After a pass over elements with pairwise distinct keys, every element's node holds the
record of that element. -/
theorem for_each_items_remembers {κ α γ β : Type} [DecidableEq κ] [DecidableEq γ]
    (g : List γ → β) (input : α → γ) :
    ∀ (items : List (node_key κ × α)) (nodes : node_key κ → Option (apply_record γ β)),
      coherent g nodes → (items.map Prod.fst).Nodup →
      ∀ p ∈ items,
        remembers g (for_each_items (fun args => Except.ok (g args)) input nodes items).nodes
          p.1 (input p.2) := by
  intro items
  induction items with
  | nil => intro nodes _ _ p hp; simp at hp
  | cons head rest ih =>
    intro nodes hco hnodup p hp
    obtain ⟨k, x⟩ := head
    simp only [List.map_cons, List.nodup_cons] at hnodup
    have hstep := for_each_items_coherent g input [(k, x)] nodes hco
    simp only [for_each_items] at hstep ⊢
    rcases List.mem_cons.mp hp with rfl | hrest
    · unfold remembers
      rw [for_each_items_frame _ _ _ _ _ hnodup.1, Function.update_same]
      exact apply_value_node g (nodes k) (input x) (hco k)
    · exact ih _ hstep hnodup.2 p hrest

/-- A pass over elements whose nodes already hold their records invokes nothing, leaves every
node as it was, and yields the elements' results in the order of the pass. -/
theorem for_each_items_reuse {κ α γ β : Type} [DecidableEq κ] [DecidableEq γ]
    (g : List γ → β) (input : α → γ) :
    ∀ (items : List (node_key κ × α)) (nodes : node_key κ → Option (apply_record γ β)),
      (∀ p ∈ items, remembers g nodes p.1 (input p.2)) →
      (for_each_items (fun args => Except.ok (g args)) input nodes items).calls = 0
        ∧ (for_each_items (fun args => Except.ok (g args)) input nodes items).nodes = nodes
        ∧ (for_each_items (fun args => Except.ok (g args)) input nodes items).results.map
            (fun s => s.value) = items.map (fun p => some (g [input p.2])) := by
  intro items
  induction items with
  | nil => intro nodes _; simp [for_each_items]
  | cons head rest ih =>
    intro nodes hall
    obtain ⟨k, x⟩ := head
    obtain ⟨record, hnode, hids, hres⟩ := hall (k, x) (by simp)
    obtain ⟨h1, h2, h3⟩ := apply_value_reuse g (nodes k) (input x) record hnode hids hres
    have hupd : Function.update nodes k
        (apply (nodes k) (fun args => Except.ok (g args)) [value (input x)]).node = nodes := by
      rw [h1]; exact Function.update_eq_self k nodes
    obtain ⟨i1, i2, i3⟩ := ih nodes (fun p hp => hall p (by simp [hp]))
    simp only [for_each_items, hupd, h2, i1, i2, List.map_cons, h3, i3]
    simp

/-- With an identity accessor, every element is keyed by its identity, in either container. -/
theorem for_each_keys_identity {κ α : Type} (id_of : α → κ) (collection : container α) :
    for_each_keys (some id_of) collection
      = collection.contents.map (fun x => (node_key.identity (id_of x), x)) := by
  have h : ∀ (l : List α) (start : Nat),
      (index_from start l).map (fun p => ((node_key.identity (id_of p.2) : node_key κ), p.2))
        = l.map (fun x => (node_key.identity (id_of x), x)) := by
    intro l
    induction l with
    | nil => intro start; rfl
    | cons x xs ih => intro start; simp [index_from, ih]
  cases collection with
  | vector items => simpa [for_each_keys, container.contents] using h items 0
  | list nodes => simpa [for_each_keys, container.contents] using h (nodes.map Prod.snd) 0

/-- C4: for a collection whose elements expose an identity (pairwise distinct), re-traversing
`for_each` after any permutation of the elements invokes the memoized per-element function zero
additional times; every element is matched to the node keyed by its identity and all nodes are
left as the previous traversal left them; the elements are visited in the new order. -/
theorem for_each_identity_reorder_no_calls {κ α γ β : Type} [DecidableEq κ] [DecidableEq γ]
    (id_of : α → κ) (g : List γ → β) (input : α → γ)
    (nodes : node_key κ → Option (apply_record γ β)) (before after : container α)
    (hcoherent : coherent g nodes)
    (hdistinct : (before.contents.map id_of).Nodup)
    (hperm : after.contents.Perm before.contents) :
    (for_each (some id_of) (fun args => Except.ok (g args)) input
        (for_each (some id_of) (fun args => Except.ok (g args)) input nodes before).nodes
        after).calls = 0
      ∧ (for_each (some id_of) (fun args => Except.ok (g args)) input
          (for_each (some id_of) (fun args => Except.ok (g args)) input nodes before).nodes
          after).nodes
        = (for_each (some id_of) (fun args => Except.ok (g args)) input nodes before).nodes
      ∧ (for_each_keys (some id_of) after).map Prod.fst
        = after.contents.map (fun x => node_key.identity (id_of x))
      ∧ (for_each (some id_of) (fun args => Except.ok (g args)) input
          (for_each (some id_of) (fun args => Except.ok (g args)) input nodes before).nodes
          after).results.map (fun s => s.value)
        = after.contents.map (fun x => some (g [input x])) := by
  have hkeys : ((for_each_keys (some id_of) before).map Prod.fst).Nodup := by
    rw [for_each_keys_identity, List.map_map]
    have hinj : Function.Injective (node_key.identity : κ → node_key κ) :=
      fun a b h => by injection h
    have := List.Nodup.map hinj hdistinct
    simpa [List.map_map, Function.comp_def] using this
  have hmem : ∀ p ∈ for_each_keys (some id_of) after,
      remembers g
        (for_each (some id_of) (fun args => Except.ok (g args)) input nodes before).nodes
        p.1 (input p.2) := by
    intro p hp
    apply for_each_items_remembers g input _ nodes hcoherent hkeys p
    rw [for_each_keys_identity] at hp ⊢
    exact (List.Perm.map _ hperm).subset hp
  obtain ⟨h1, h2, h3⟩ := for_each_items_reuse g input _ _ hmem
  refine ⟨h1, h2, ?_, ?_⟩
  · rw [for_each_keys_identity, List.map_map]; rfl
  · simp only [for_each] at h3 ⊢
    rw [h3, for_each_keys_identity, List.map_map]; rfl

/-- The statement of C4 at the test "item vector": items apple, banana, cherry (the identity
of an item is its `id` string), reversed; the first traversal makes 3 calls, the one after the
reversal none. -/
theorem for_each_identity_reorder_no_calls_witness :
    coherent (fun args : List String => args.headD "")
        (fun _ : node_key String => (none : Option (apply_record String String)))
      ∧ ((container.vector ["apple", "banana", "cherry"]).contents.map
          (fun s : String => s)).Nodup
      ∧ (for_each (some (fun s : String => s))
          (fun args => Except.ok ((fun a : List String => a.headD "") args))
          (fun s : String => s) (fun _ => none)
          (container.vector ["apple", "banana", "cherry"])).calls = 3
      ∧ (for_each (some (fun s : String => s))
          (fun args => Except.ok ((fun a : List String => a.headD "") args))
          (fun s : String => s)
          (for_each (some (fun s : String => s))
            (fun args => Except.ok ((fun a : List String => a.headD "") args))
            (fun s : String => s) (fun _ => none)
            (container.vector ["apple", "banana", "cherry"])).nodes
          (container.vector ["cherry", "banana", "apple"])).calls = 0 :=
  ⟨fun _ _ h => by simp at h, by decide, by decide,
    (for_each_identity_reorder_no_calls (fun s : String => s)
      (fun a : List String => a.headD "") (fun s : String => s) (fun _ => none)
      (container.vector ["apple", "banana", "cherry"])
      (container.vector ["cherry", "banana", "apple"])
      (fun _ _ h => by simp at h) (by decide)
      (List.reverse_perm ["apple", "banana", "cherry"])).1⟩

/-- What `begin` does to the traversal and what it records, in one place. -/
theorem begin_effect (regions : region_store) (traversal : event_traversal)
    (region : region_id) (is_new : Bool) :
    (scoped_routing_region.begin regions traversal region is_new).2.1.targeted
        = traversal.targeted
      ∧ (scoped_routing_region.begin regions traversal region is_new).2.1.active_region
        = some region
      ∧ (scoped_routing_region.begin regions traversal region is_new).2.2.parent_
        = traversal.active_region
      ∧ (scoped_routing_region.begin regions traversal region is_new).2.2.traversal_ = true
      ∧ (traversal.targeted = true → ∀ rest, traversal.path_to_target = region :: rest →
          (scoped_routing_region.begin regions traversal region is_new).2.2.is_relevant_ = true
            ∧ (scoped_routing_region.begin regions traversal region is_new).2.1.path_to_target
              = rest)
      ∧ (traversal.targeted = true → (∀ rest, traversal.path_to_target ≠ region :: rest) →
          (scoped_routing_region.begin regions traversal region is_new).2.2.is_relevant_ = false
            ∧ (scoped_routing_region.begin regions traversal region is_new).2.1.path_to_target
              = traversal.path_to_target) := by
  unfold scoped_routing_region.begin
  cases ht : traversal.targeted
  · simp
  · cases hp : traversal.path_to_target with
    | nil => simp
    | cons node rest =>
      by_cases hn : node = region
      · simp [hn]
      · have hn2 : ¬ region = node := fun h => hn h.symm
        simp [hn, hn2]

/-- `end` leaves `targeted` and `path_to_target` alone. -/
theorem end_effect (self : scoped_routing_region) (traversal : event_traversal) :
    (self.end_ traversal).2.targeted = traversal.targeted
      ∧ (self.end_ traversal).2.path_to_target = traversal.path_to_target := by
  unfold scoped_routing_region.end_
  split <;> simp

/-- Every region of the forest is entered, in order, and `targeted` is never changed. -/
theorem enter_regions_ids :
    ∀ (forest : region_forest) (regions : region_store) (traversal : event_traversal),
      (enter_regions forest regions traversal).entered.map Prod.fst = forest.ids
        ∧ (enter_regions forest regions traversal).traversal.targeted = traversal.targeted := by
  intro forest
  induction forest with
  | nil => intro regions traversal; simp [enter_regions, region_forest.ids]
  | node region is_new children siblings ihc ihs =>
    intro regions traversal
    simp only [enter_regions, region_forest.ids, List.map_cons, List.map_append]
    refine ⟨?_, ?_⟩
    · rw [(ihc _ _).1, (ihs _ _).1]
    · rw [(ihs _ _).2, (end_effect _ _).1, (ihc _ _).2, (begin_effect _ _ _ _).1]

/-- In a targeted traversal, a forest that does not contain the next node of the path is
entered without any region being marked relevant, and the path is left as it was. -/
theorem enter_regions_off_path :
    ∀ (forest : region_forest) (regions : region_store) (traversal : event_traversal),
      traversal.targeted = true →
      (∀ next rest, traversal.path_to_target = next :: rest → next ∉ forest.ids) →
      (∀ p ∈ (enter_regions forest regions traversal).entered, p.2 = false)
        ∧ (enter_regions forest regions traversal).traversal.path_to_target
          = traversal.path_to_target := by
  intro forest
  induction forest with
  | nil => intro regions traversal _ _; simp [enter_regions]
  | node region is_new children siblings ihc ihs =>
    intro regions traversal ht hhead
    have hb := begin_effect regions traversal region is_new
    have hne : ∀ rest, traversal.path_to_target ≠ region :: rest := by
      intro rest h
      exact hhead region rest h (by simp [region_forest.ids])
    obtain ⟨hrel, hpath⟩ := hb.2.2.2.2.2 ht hne
    have ht1 := hb.1.trans ht
    have hc := ihc (scoped_routing_region.begin regions traversal region is_new).1
      (scoped_routing_region.begin regions traversal region is_new).2.1 ht1
      (by
        intro next rest h
        rw [hpath] at h
        intro hmem
        exact hhead next rest h (by simp [region_forest.ids, hmem]))
    have he := end_effect (scoped_routing_region.begin regions traversal region is_new).2.2
      (enter_regions children (scoped_routing_region.begin regions traversal region is_new).1
        (scoped_routing_region.begin regions traversal region is_new).2.1).traversal
    have hti := (enter_regions_ids children
      (scoped_routing_region.begin regions traversal region is_new).1
      (scoped_routing_region.begin regions traversal region is_new).2.1).2
    have hs := ihs
      (enter_regions children (scoped_routing_region.begin regions traversal region is_new).1
        (scoped_routing_region.begin regions traversal region is_new).2.1).regions
      ((scoped_routing_region.begin regions traversal region is_new).2.2.end_
        (enter_regions children (scoped_routing_region.begin regions traversal region is_new).1
          (scoped_routing_region.begin regions traversal region is_new).2.1).traversal).2
      (by rw [he.1, hti, ht1])
      (by
        intro next rest h
        rw [he.2, hc.2, hpath] at h
        intro hmem
        exact hhead next rest h (by simp [region_forest.ids, hmem]))
    simp only [enter_regions]
    refine ⟨?_, ?_⟩
    · intro p hp
      simp only [List.mem_cons, List.mem_append] at hp
      rcases hp with rfl | hp | hp
      · exact hrel
      · exact hc.1 p hp
      · exact hs.1 p hp
    · rw [hs.2, he.2, hc.2, hpath]

/-- C10, as stated, fails: region 2 was outermost when its parent link was recorded, and an
event is routed to it while the controller now enters it inside region 1. `begin` marks
region 1 irrelevant (the path starts with 2), and region 2, begun before the `end` of region 1,
is marked relevant. -/
theorem irrelevant_region_with_relevant_child :
    (route_event 0 1
        { data := { regions := fun _ => none },
          controller := region_controller
            (region_forest.node 1 false (region_forest.node 2 false region_forest.nil
              region_forest.nil) region_forest.nil),
          refresh_needed := false, tick_source := none }
        { active_region := none, targeted := true, path_to_target := [],
          event_type := event_type_id.other_event 0 }
        (some 2)).map (fun o => o.effects.entered)
      = some [(1, false), (2, true)] := by
  decide

/-- C10, amended: during a targeted traversal, if `begin` marks a region irrelevant and the
next node of `path_to_target` is not one of the regions begun between that `begin` and its
matching `end`, then every one of those regions is marked irrelevant as well (and the path is
still the same at the `end`). -/
theorem irrelevant_region_subtree_irrelevant (regions : region_store)
    (traversal : event_traversal) (region : region_id) (is_new : Bool)
    (children : region_forest) (htargeted : traversal.targeted = true)
    (hirrelevant :
      (scoped_routing_region.begin regions traversal region is_new).2.2.is_relevant_ = false)
    (hnext : ∀ next rest, traversal.path_to_target = next :: rest → next ∉ children.ids) :
    (∀ p ∈ (enter_regions children
          (scoped_routing_region.begin regions traversal region is_new).1
          (scoped_routing_region.begin regions traversal region is_new).2.1).entered,
        p.2 = false)
      ∧ (enter_regions children
          (scoped_routing_region.begin regions traversal region is_new).1
          (scoped_routing_region.begin regions traversal region is_new).2.1).entered.map
          Prod.fst = children.ids
      ∧ (enter_regions children
          (scoped_routing_region.begin regions traversal region is_new).1
          (scoped_routing_region.begin regions traversal region is_new).2.1).traversal.path_to_target
        = traversal.path_to_target := by
  have hb := begin_effect regions traversal region is_new
  have hne : ∀ rest, traversal.path_to_target ≠ region :: rest := by
    intro rest h
    have := (hb.2.2.2.2.1 htargeted rest h).1
    rw [hirrelevant] at this
    exact Bool.false_ne_true this
  obtain ⟨_, hpath⟩ := hb.2.2.2.2.2 htargeted hne
  have hoff := enter_regions_off_path children
    (scoped_routing_region.begin regions traversal region is_new).1
    (scoped_routing_region.begin regions traversal region is_new).2.1 (hb.1.trans htargeted)
    (by intro next rest h; rw [hpath] at h; exact hnext next rest h)
  exact ⟨hoff.1, (enter_regions_ids _ _ _).1, hoff.2.trans hpath⟩

/-- The amended C10 at a path `[5]`: region 1 is irrelevant and so are regions 2 and 3 begun
inside it. -/
theorem irrelevant_region_subtree_irrelevant_witness :
    (scoped_routing_region.begin (fun _ => none)
        { active_region := none, targeted := true, path_to_target := [5],
          event_type := event_type_id.other_event 0 } 1 false).2.2.is_relevant_ = false
      ∧ (∀ next rest, [5] = next :: rest →
          next ∉ (region_forest.node 2 false region_forest.nil
            (region_forest.node 3 false region_forest.nil region_forest.nil)).ids)
      ∧ ∀ p ∈ (enter_regions
          (region_forest.node 2 false region_forest.nil
            (region_forest.node 3 false region_forest.nil region_forest.nil))
          (scoped_routing_region.begin (fun _ => none)
            { active_region := none, targeted := true, path_to_target := [5],
              event_type := event_type_id.other_event 0 } 1 false).1
          (scoped_routing_region.begin (fun _ => none)
            { active_region := none, targeted := true, path_to_target := [5],
              event_type := event_type_id.other_event 0 } 1 false).2.1).entered,
        p.2 = false :=
  ⟨by decide,
    by intro next rest h; cases h; decide,
    (irrelevant_region_subtree_irrelevant (fun _ => none)
      { active_region := none, targeted := true, path_to_target := [5],
        event_type := event_type_id.other_event 0 } 1 false
      (region_forest.node 2 false region_forest.nil
        (region_forest.node 3 false region_forest.nil region_forest.nil))
      rfl (by decide) (by intro next rest h; cases h; decide)).1⟩

/-! ## The path built by `route_event_` -/

/-- The parent chain from a region is unique. -/
theorem is_parent_chain_unique (regions : region_store) :
    ∀ (l1 l2 : List region_id) (start : Option region_id),
      is_parent_chain regions start l1 → is_parent_chain regions start l2 → l1 = l2 := by
  intro l1
  induction l1 with
  | nil =>
    intro l2 start h1 h2
    cases start <;> cases l2 <;> simp_all [is_parent_chain]
  | cons x xs ih =>
    intro l2 start h1 h2
    cases start with
    | none => simp [is_parent_chain] at h1
    | some s =>
      cases l2 with
      | nil => simp [is_parent_chain] at h2
      | cons y ys =>
        simp only [is_parent_chain] at h1 h2
        rw [h1.1, h2.1, ih ys _ h1.2 h2.2]

/-- A region on a parent chain is followed on it by its own parent chain. -/
theorem is_parent_chain_from_member (regions : region_store) :
    ∀ (chain : List region_id) (start : Option region_id) (y : region_id),
      is_parent_chain regions start chain → y ∈ chain →
      ∃ pre l, chain = pre ++ y :: l ∧ is_parent_chain regions (regions y) l := by
  intro chain
  induction chain with
  | nil => intro start y _ hy; simp at hy
  | cons x xs ih =>
    intro start y h hy
    cases start with
    | none => simp [is_parent_chain] at h
    | some s =>
      simp only [is_parent_chain] at h
      rcases List.mem_cons.mp hy with rfl | hy
      · exact ⟨[], xs, rfl, by rw [h.1]; exact h.2⟩
      · obtain ⟨pre, l, hl, hc⟩ := ih _ y h.2 hy
        exact ⟨x :: pre, l, by rw [hl]; rfl, hc⟩

/-- A region on the chain whose parent is `a` sits on it right before the chain of `a`. -/
theorem chain_member_before_parent (regions : region_store) (chain : List region_id)
    (start : Option region_id) (hchain : is_parent_chain regions start chain)
    (x : region_id) (a : Option region_id) (la : List region_id) (hx : x ∈ chain)
    (hparent : regions x = a) (hla : is_parent_chain regions a la) :
    ∃ pre, chain = pre ++ x :: la := by
  obtain ⟨pre, l, hl, hc⟩ := is_parent_chain_from_member regions chain start x hchain hx
  rw [hparent] at hc
  exact ⟨pre, by rw [hl, is_parent_chain_unique regions l la a hc hla]⟩

/-- Regions nested under `a` as recorded, none of which sits on the chain right before the
chain of `a`, are all off the chain, with everything nested in them. -/
theorem nested_off_chain (regions : region_store) (chain : List region_id)
    (start : Option region_id) (hchain : is_parent_chain regions start chain) :
    ∀ (forest : region_forest) (a : Option region_id) (la : List region_id),
      nested_as_recorded regions a forest → is_parent_chain regions a la →
      (∀ x ∈ forest.ids, ∀ pre, chain ≠ pre ++ x :: la) →
      ∀ y ∈ forest.ids, y ∉ chain := by
  intro forest
  induction forest with
  | nil => intro a la _ _ _ y hy; simp [region_forest.ids] at hy
  | node region is_new children siblings ihc ihs =>
    intro a la hnested hla hoff y hy
    simp only [nested_as_recorded] at hnested
    have hregion : region ∉ chain := by
      intro hmem
      obtain ⟨pre, hpre⟩ :=
        chain_member_before_parent regions chain start hchain region a la hmem hnested.1 hla
      exact hoff region (by simp [region_forest.ids]) pre hpre
    simp only [region_forest.ids, List.mem_cons, List.mem_append] at hy
    rcases hy with rfl | hy | hy
    · exact hregion
    · refine ihc (some region) (region :: la) hnested.2.1 ?_ ?_ y hy
      · exact ⟨rfl, by rw [hnested.1]; exact hla⟩
      · intro x _ pre hpre
        apply hregion
        rw [hpre]
        simp
    · exact ihs a la hnested.2.2 hla
        (fun x hx pre => hoff x (by simp [region_forest.ids, hx]) pre) y hy

/-- The core of routing correctness. `chain` is a parent chain in `recorded`, the controller is
inside region `a` (whose own chain is `la`), and what is left of the path, reversed, followed
by `la` is `chain`. Then entering regions nested under `a` as recorded marks exactly the
regions on the chain relevant, and only consumes nodes of the path. -/
theorem enter_regions_on_path (recorded : region_store) (chain : List region_id)
    (start : Option region_id) (hchain : is_parent_chain recorded start chain) :
    ∀ (forest : region_forest) (regions : region_store) (traversal : event_traversal)
      (a : Option region_id) (la : List region_id),
      traversal.targeted = true → nested_as_recorded recorded a forest → forest.ids.Nodup →
      is_parent_chain recorded a la → chain = traversal.path_to_target.reverse ++ la →
      (∀ p ∈ (enter_regions forest regions traversal).entered, (p.2 = true ↔ p.1 ∈ chain))
        ∧ (∀ z ∈ (enter_regions forest regions traversal).traversal.path_to_target,
            z ∈ traversal.path_to_target) := by
  intro forest
  induction forest with
  | nil => intro regions traversal a la _ _ _ _ _; simp [enter_regions]
  | node region is_new children siblings ihc ihs =>
    intro regions traversal a la ht hnested hnodup hla hsplit
    simp only [nested_as_recorded] at hnested
    simp only [region_forest.ids, List.nodup_cons, List.mem_append, not_or,
      List.nodup_append] at hnodup
    obtain ⟨⟨hrc, hrs⟩, hndc, hnds, _⟩ := hnodup
    have hb := begin_effect regions traversal region is_new
    have hti := enter_regions_ids children
      (scoped_routing_region.begin regions traversal region is_new).1
      (scoped_routing_region.begin regions traversal region is_new).2.1
    have he := end_effect (scoped_routing_region.begin regions traversal region is_new).2.2
      (enter_regions children (scoped_routing_region.begin regions traversal region is_new).1
        (scoped_routing_region.begin regions traversal region is_new).2.1).traversal
    have hts : ((scoped_routing_region.begin regions traversal region is_new).2.2.end_
        (enter_regions children (scoped_routing_region.begin regions traversal region is_new).1
          (scoped_routing_region.begin regions traversal region is_new).2.1).traversal).2.targeted
        = true := by rw [he.1, hti.2, hb.1, ht]
    have hsi := enter_regions_ids siblings
      (enter_regions children (scoped_routing_region.begin regions traversal region is_new).1
        (scoped_routing_region.begin regions traversal region is_new).2.1).regions
      ((scoped_routing_region.begin regions traversal region is_new).2.2.end_
        (enter_regions children (scoped_routing_region.begin regions traversal region is_new).1
          (scoped_routing_region.begin regions traversal region is_new).2.1).traversal).2
    have hregion_chain : is_parent_chain recorded (some region) (region :: la) :=
      ⟨rfl, by rw [hnested.1]; exact hla⟩
    by_cases hhead : ∃ rest, traversal.path_to_target = region :: rest
    · -- the region is the next node of the path
      obtain ⟨rest, hrest⟩ := hhead
      obtain ⟨hrel, hpath⟩ := hb.2.2.2.2.1 ht rest hrest
      have hsplit1 : chain = rest.reverse ++ region :: la := by
        rw [hsplit, hrest]; simp
      have hc := ihc (scoped_routing_region.begin regions traversal region is_new).1
        (scoped_routing_region.begin regions traversal region is_new).2.1 (some region)
        (region :: la) (hb.1.trans ht) hnested.2.1 hndc hregion_chain
        (by rw [hpath]; exact hsplit1)
      have hsib_off : ∀ y ∈ siblings.ids, y ∉ chain := by
        apply nested_off_chain recorded chain start hchain siblings a la hnested.2.2 hla
        intro x hx pre hpre
        rw [hsplit1] at hpre
        have h1 : rest.reverse ++ [region] ++ la = pre ++ [x] ++ la := by simpa using hpre
        have h2 := List.append_cancel_right h1
        have h3 := List.append_inj_right' h2 rfl
        simp only [List.cons.injEq, and_true] at h3
        exact hrs (h3 ▸ hx)
      have hs := enter_regions_off_path siblings
        (enter_regions children (scoped_routing_region.begin regions traversal region is_new).1
          (scoped_routing_region.begin regions traversal region is_new).2.1).regions
        ((scoped_routing_region.begin regions traversal region is_new).2.2.end_
          (enter_regions children
            (scoped_routing_region.begin regions traversal region is_new).1
            (scoped_routing_region.begin regions traversal region is_new).2.1).traversal).2
        hts
        (by
          intro next more h hmem
          rw [he.2] at h
          have hin := hc.2 next (by rw [h]; simp)
          rw [hpath] at hin
          exact hsib_off next hmem (by rw [hsplit1]; simp [hin]))
      simp only [enter_regions]
      refine ⟨?_, ?_⟩
      · intro p hp
        simp only [List.mem_cons, List.mem_append] at hp
        rcases hp with rfl | hp | hp
        · simp [hrel, hsplit1]
        · exact hc.1 p hp
        · have hfalse := hs.1 p hp
          have hid : p.1 ∈ siblings.ids := by
            rw [← hsi.1]; exact List.mem_map_of_mem _ hp
          simp [hfalse, hsib_off p.1 hid]
      · intro z hz
        rw [hs.2, he.2] at hz
        have := hc.2 z hz
        rw [hpath] at this
        rw [hrest]
        simp [this]
    · -- the region is not the next node of the path
      have hne : ∀ rest, traversal.path_to_target ≠ region :: rest :=
        fun rest h => hhead ⟨rest, h⟩
      obtain ⟨hrel, hpath⟩ := hb.2.2.2.2.2 ht hne
      have hregion_off : region ∉ chain := by
        intro hmem
        obtain ⟨pre, hpre⟩ :=
          chain_member_before_parent recorded chain start hchain region a la hmem hnested.1 hla
        rw [hsplit] at hpre
        have h1 : traversal.path_to_target.reverse ++ la = pre ++ [region] ++ la := by
          simpa using hpre
        have h2 := List.append_cancel_right h1
        have h3 : traversal.path_to_target = region :: pre.reverse := by
          have := congrArg List.reverse h2
          simpa using this
        exact hne _ h3
      have hchild_off : ∀ y ∈ children.ids, y ∉ chain := by
        apply nested_off_chain recorded chain start hchain children (some region) (region :: la)
          hnested.2.1 hregion_chain
        intro x _ pre hpre
        apply hregion_off
        rw [hpre]
        simp
      have hc := enter_regions_off_path children
        (scoped_routing_region.begin regions traversal region is_new).1
        (scoped_routing_region.begin regions traversal region is_new).2.1 (hb.1.trans ht)
        (by
          intro next more h hmem
          rw [hpath] at h
          exact hchild_off next hmem (by rw [hsplit, h]; simp))
      have hs := ihs
        (enter_regions children (scoped_routing_region.begin regions traversal region is_new).1
          (scoped_routing_region.begin regions traversal region is_new).2.1).regions
        ((scoped_routing_region.begin regions traversal region is_new).2.2.end_
          (enter_regions children
            (scoped_routing_region.begin regions traversal region is_new).1
            (scoped_routing_region.begin regions traversal region is_new).2.1).traversal).2
        a la hts hnested.2.2 hnds hla (by rw [he.2, hc.2, hpath]; exact hsplit)
      simp only [enter_regions]
      refine ⟨?_, ?_⟩
      · intro p hp
        simp only [List.mem_cons, List.mem_append] at hp
        rcases hp with rfl | hp | hp
        · simp [hrel, hregion_off]
        · have hfalse := hc.1 p hp
          have hid : p.1 ∈ children.ids := by
            rw [← hti.1]; exact List.mem_map_of_mem _ hp
          simp [hfalse, hchild_off p.1 hid]
        · exact hs.1 p hp
      · intro z hz
        have := hs.2 z hz
        rw [he.2, hc.2, hpath] at this
        exact this

/-- With a parent chain of `chain.length` regions from `target`, `route_event_` reaches
`invoke_controller` with the chain, root first, pushed in front of the path. -/
theorem route_event__reaches_controller {ρ : Type} (default_tick_count : Nat) (sys : system ρ) :
    ∀ (chain : List region_id) (target : Option region_id) (traversal : event_traversal),
      is_parent_chain sys.data.regions target chain →
      route_event_ default_tick_count chain.length sys traversal target
        = some (invoke_controller default_tick_count sys
            { traversal with
              path_to_target := chain.reverse ++ traversal.path_to_target }) := by
  intro chain
  induction chain with
  | nil =>
    intro target traversal h
    cases target with
    | none => simp [route_event_]
    | some t => simp [is_parent_chain] at h
  | cons x xs ih =>
    intro target traversal h
    cases target with
    | none => simp [is_parent_chain] at h
    | some t =>
      simp only [is_parent_chain] at h
      simp only [List.length_cons, route_event_]
      rw [ih _ _ h.2, h.1]
      simp

/-- C1: for a target whose parent chain is acyclic (`chain` lists the target, its parent, ...,
up to the root), when `route_event` dispatches a targeted traversal at the target and the
controller enters pairwise distinct routing regions nested as their parent links record,
`route_event` reaches the controller, every region of the controller is entered, and `begin`
marks a region relevant if and only if it is on the chain (the target or one of its
ancestors); every other region entered is marked irrelevant. -/
theorem route_event_marks_exactly_path (default_tick_count : Nat) (regions : region_store)
    (forest : region_forest) (traversal : event_traversal) (target : region_id)
    (chain : List region_id) (refresh_needed : Bool) (tick_source : Option Nat)
    (hchain : is_parent_chain regions (some target) chain)
    (hnested : nested_as_recorded regions none forest) (hdistinct : forest.ids.Nodup)
    (htargeted : traversal.targeted = true) (hpath : traversal.path_to_target = []) :
    ∃ walk : region_walk,
      route_event default_tick_count chain.length
          { data := { regions := regions }, controller := region_controller forest,
            refresh_needed := refresh_needed, tick_source := tick_source }
          traversal (some target)
        = some { effects := walk, raised := none }
      ∧ walk.entered.map Prod.fst = forest.ids
      ∧ (∀ region relevant, (region, relevant) ∈ walk.entered →
          (relevant = true ↔ region ∈ chain))
      ∧ (∀ region relevant, (region, relevant) ∈ walk.entered → region ∉ chain →
          relevant = false) := by
  have hreach := route_event__reaches_controller default_tick_count
    { data := { regions := regions }, controller := region_controller forest,
      refresh_needed := refresh_needed, tick_source := tick_source }
    chain (some target) traversal hchain
  have hon := enter_regions_on_path regions chain (some target) hchain forest regions
    { traversal with path_to_target := chain.reverse ++ traversal.path_to_target } none []
    htargeted hnested hdistinct trivial (by simp [hpath])
  refine ⟨enter_regions forest regions
      { traversal with path_to_target := chain.reverse ++ traversal.path_to_target },
    ?_, (enter_regions_ids _ _ _).1, ?_, ?_⟩
  · simp [route_event, hreach, invoke_controller, region_controller]
  · intro region relevant hmem
    exact hon.1 (region, relevant) hmem
  · intro region relevant hmem hoff
    have := (hon.1 (region, relevant) hmem).not.mpr hoff
    simpa using this

/-- The statement of C1 at a controller with regions 1 ⊃ (2 ⊃ 4, 3) and 5, parent links as
nested, and target 4, whose chain is 4, 2, 1: regions 1, 2 and 4 are marked relevant, 3 and 5
irrelevant. -/
theorem route_event_marks_exactly_path_witness :
    is_parent_chain (fun r => if r = 4 then some 2 else if r = 2 ∨ r = 3 then some 1 else none)
        (some 4) [4, 2, 1]
      ∧ nested_as_recorded
        (fun r => if r = 4 then some 2 else if r = 2 ∨ r = 3 then some 1 else none) none
        (region_forest.node 1 false
          (region_forest.node 2 false
            (region_forest.node 4 false region_forest.nil region_forest.nil)
            (region_forest.node 3 false region_forest.nil region_forest.nil))
          (region_forest.node 5 false region_forest.nil region_forest.nil))
      ∧ (route_event 0 3
          { data :=
              { regions := fun r =>
                  if r = 4 then some 2 else if r = 2 ∨ r = 3 then some 1 else none },
            controller := region_controller
              (region_forest.node 1 false
                (region_forest.node 2 false
                  (region_forest.node 4 false region_forest.nil region_forest.nil)
                  (region_forest.node 3 false region_forest.nil region_forest.nil))
                (region_forest.node 5 false region_forest.nil region_forest.nil)),
            refresh_needed := false, tick_source := none }
          { active_region := none, targeted := true, path_to_target := [],
            event_type := event_type_id.other_event 0 }
          (some 4)).map (fun o => o.effects.entered)
        = some [(1, true), (2, true), (4, true), (3, false), (5, false)]
      ∧ ∃ walk : region_walk,
          route_event 0 [4, 2, 1].length
              { data :=
                  { regions := fun r =>
                      if r = 4 then some 2 else if r = 2 ∨ r = 3 then some 1 else none },
                controller := region_controller
                  (region_forest.node 1 false
                    (region_forest.node 2 false
                      (region_forest.node 4 false region_forest.nil region_forest.nil)
                      (region_forest.node 3 false region_forest.nil region_forest.nil))
                    (region_forest.node 5 false region_forest.nil region_forest.nil)),
                refresh_needed := false, tick_source := none }
              { active_region := none, targeted := true, path_to_target := [],
                event_type := event_type_id.other_event 0 }
              (some 4)
            = some { effects := walk, raised := none }
          ∧ walk.entered.map Prod.fst
            = (region_forest.node 1 false
                (region_forest.node 2 false
                  (region_forest.node 4 false region_forest.nil region_forest.nil)
                  (region_forest.node 3 false region_forest.nil region_forest.nil))
                (region_forest.node 5 false region_forest.nil region_forest.nil)).ids
          ∧ (∀ region relevant, (region, relevant) ∈ walk.entered →
              (relevant = true ↔ region ∈ [4, 2, 1]))
          ∧ (∀ region relevant, (region, relevant) ∈ walk.entered → region ∉ [4, 2, 1] →
              relevant = false) :=
  ⟨by simp [is_parent_chain], by simp [nested_as_recorded], by decide,
    route_event_marks_exactly_path 0
      (fun r => if r = 4 then some 2 else if r = 2 ∨ r = 3 then some 1 else none)
      (region_forest.node 1 false
        (region_forest.node 2 false
          (region_forest.node 4 false region_forest.nil region_forest.nil)
          (region_forest.node 3 false region_forest.nil region_forest.nil))
        (region_forest.node 5 false region_forest.nil region_forest.nil))
      { active_region := none, targeted := true, path_to_target := [],
        event_type := event_type_id.other_event 0 }
      4 [4, 2, 1] false none
      (by simp [is_parent_chain]) (by simp [nested_as_recorded]) (by decide) rfl rfl⟩

/-! ## Broadcast traversals, the path of `route_event_`, and conditions raised by the controller -/

/-- C11: when the traversal is not targeted, `begin` marks the region relevant and leaves
`path_to_target` unchanged, whatever `path_to_target` holds. -/
theorem begin_untargeted_relevant (regions : region_store) (traversal : event_traversal)
    (region : region_id) (is_new : Bool) (hbroadcast : traversal.targeted = false) :
    (scoped_routing_region.begin regions traversal region is_new).2.2.is_relevant_ = true
      ∧ (scoped_routing_region.begin regions traversal region is_new).2.1.path_to_target
        = traversal.path_to_target
      ∧ (scoped_routing_region.begin regions traversal region is_new).2.1.targeted = false := by
  unfold scoped_routing_region.begin
  simp [hbroadcast]

/-- The statement of C11 at a refresh traversal whose path happens to start with the region
entered. -/
theorem begin_untargeted_relevant_witness :
    (scoped_routing_region.begin (fun _ => none)
        { active_region := none, targeted := false, path_to_target := [7, 9],
          event_type := event_type_id.refresh_event } 7 false).2.2.is_relevant_ = true
      ∧ (scoped_routing_region.begin (fun _ => none)
        { active_region := none, targeted := false, path_to_target := [7, 9],
          event_type := event_type_id.refresh_event } 7 false).2.1.path_to_target = [7, 9]
      ∧ (scoped_routing_region.begin (fun _ => none)
        { active_region := none, targeted := false, path_to_target := [7, 9],
          event_type := event_type_id.refresh_event } 7 false).2.1.targeted = false :=
  begin_untargeted_relevant (fun _ => none)
    { active_region := none, targeted := false, path_to_target := [7, 9],
      event_type := event_type_id.refresh_event } 7 false rfl

/-- With at least as much depth as the parent chain of the target is long, `route_event_`
returns what `invoke_controller` returns on the traversal with the chain, root first, pushed in
front of the path. -/
theorem route_event__enough_depth {ρ : Type} (default_tick_count : Nat) (sys : system ρ) :
    ∀ (chain : List region_id) (fuel : Nat) (target : Option region_id)
      (traversal : event_traversal),
      is_parent_chain sys.data.regions target chain → chain.length ≤ fuel →
      route_event_ default_tick_count fuel sys traversal target
        = some (invoke_controller default_tick_count sys
            { traversal with
              path_to_target := chain.reverse ++ traversal.path_to_target }) := by
  intro chain
  induction chain with
  | nil =>
    intro fuel target traversal h _
    cases target with
    | none => cases fuel <;> simp [route_event_]
    | some t => simp [is_parent_chain] at h
  | cons x xs ih =>
    intro fuel target traversal h hfuel
    cases target with
    | none => simp [is_parent_chain] at h
    | some t =>
      simp only [is_parent_chain] at h
      cases fuel with
      | zero => simp at hfuel
      | succ fuel =>
        simp only [List.length_cons, Nat.add_le_add_iff_right] at hfuel
        simp only [route_event_]
        rw [ih fuel _ _ h.2 hfuel, h.1]
        simp

/-- C12: for a target whose parent chain is finite (`ancestors` lists its parent, grandparent,
... up to the root), `route_event_` terminates (any recursion depth of at least `d + 1` is
enough) and returns the outcome of one invocation of the controller, made on a traversal whose
`path_to_target` is the ancestors root first, then the target (`d + 1` nodes), then what
`path_to_target` held on entry; for a null target the controller is invoked on the traversal
as it is. -/
theorem route_event__pushes_root_first {ρ : Type} (default_tick_count : Nat) (sys : system ρ)
    (traversal : event_traversal) (target : region_id) (ancestors : List region_id)
    (fuel : Nat) (hchain : is_parent_chain sys.data.regions (some target) (target :: ancestors))
    (hfuel : ancestors.length + 1 ≤ fuel) :
    (∃ ctx : context,
        route_event_ default_tick_count fuel sys traversal (some target)
          = some (sys.controller ctx)
        ∧ ctx.events.path_to_target
          = ancestors.reverse ++ target :: traversal.path_to_target
        ∧ (ancestors.reverse ++ [target]).length = ancestors.length + 1
        ∧ ctx.events.targeted = traversal.targeted
        ∧ ctx.events.active_region = traversal.active_region
        ∧ ctx.events.event_type = traversal.event_type
        ∧ ctx.graph = sys.data)
      ∧ (∀ depth, ∃ ctx : context,
          route_event_ default_tick_count depth sys traversal none = some (sys.controller ctx)
          ∧ ctx.events = traversal ∧ ctx.graph = sys.data) := by
  constructor
  · have h := route_event__enough_depth default_tick_count sys (target :: ancestors) fuel
      (some target) traversal hchain (by simpa using hfuel)
    exact ⟨_, h, by simp, by simp, rfl, rfl, rfl, rfl⟩
  · intro depth
    exact ⟨_, by cases depth <;> simp [route_event_] <;> rfl, rfl, rfl⟩

/-- The statement of C12 at target 4 with ancestors 2 and 1 and a path holding 8 on entry. -/
theorem route_event__pushes_root_first_witness :
    is_parent_chain (fun r => if r = 4 then some 2 else if r = 2 then some 1 else none)
        (some 4) (4 :: [2, 1])
      ∧ [2, 1].length + 1 ≤ 3
      ∧ ∃ ctx : context,
          route_event_ 0 3
              { data := { regions := fun r =>
                  if r = 4 then some 2 else if r = 2 then some 1 else none },
                controller := fun ctx => { effects := ctx.events.path_to_target, raised := none },
                refresh_needed := false, tick_source := none }
              { active_region := none, targeted := true, path_to_target := [8],
                event_type := event_type_id.other_event 0 }
              (some 4)
            = some { effects := ctx.events.path_to_target, raised := none }
          ∧ ctx.events.path_to_target = [2, 1].reverse ++ 4 :: [8] :=
  ⟨by simp [is_parent_chain], by decide,
    (route_event__pushes_root_first 0
      { data := { regions := fun r =>
          if r = 4 then some 2 else if r = 2 then some 1 else none },
        controller := fun ctx => { effects := ctx.events.path_to_target, raised := none },
        refresh_needed := false, tick_source := none }
      { active_region := none, targeted := true, path_to_target := [8],
        event_type := event_type_id.other_event 0 }
      4 [2, 1] 3 (by simp [is_parent_chain]) (by decide)).1.imp
      (fun _ h => ⟨h.1, h.2.1⟩)⟩

/-- Statements that complete are followed by the statements after them. -/
theorem run_statements_append {σ : Type} :
    ∀ (before rest : List (statement σ)) (state : σ),
      (run_statements before state).2 = none →
      run_statements (before ++ rest) state
        = run_statements rest (run_statements before state).1 := by
  intro before
  induction before with
  | nil => intro rest state _; rfl
  | cons first more ih =>
    intro rest state h
    simp only [List.cons_append, run_statements] at h ⊢
    cases hf : first state with
    | mk state1 raised =>
      cases raised with
      | none =>
        rw [hf] at h
        exact ih rest state1 h
      | some e =>
        rw [hf] at h
        simp at h

/-- C13: when the controller reaches a call of `abort_traversal` (the statements before it have
completed), `route_event` returns normally: no condition is left, and what the controller did
is what the statements before the abort did; the statements after it are not executed, whatever
they are. -/
theorem route_event_catches_abort {σ : Type} (default_tick_count : Nat) (data : data_graph)
    (init : context → σ) (before after : List (statement σ)) (refresh_needed : Bool)
    (tick_source : Option Nat) (traversal : event_traversal) (target : Option region_id)
    (chain : List region_id) (fuel : Nat)
    (hchain : is_parent_chain data.regions target chain) (hfuel : chain.length ≤ fuel)
    (hreached : ∀ ctx, (run_statements before (init ctx)).2 = none) :
    ∃ ctx : context,
      route_event default_tick_count fuel
          { data := data,
            controller := statement_controller init (before ++ abort_traversal :: after),
            refresh_needed := refresh_needed, tick_source := tick_source }
          traversal target
        = some { effects := (run_statements before (init ctx)).1, raised := none }
      ∧ ctx.events.path_to_target = chain.reverse ++ traversal.path_to_target
      ∧ (statement_controller init (before ++ abort_traversal :: after) ctx).raised
        = some exception.traversal_aborted := by
  refine ⟨{ graph := data,
            events :=
              { traversal with
                path_to_target := chain.reverse ++ traversal.path_to_target },
            data :=
              { gc_enabled := decide (traversal.event_type = event_type_id.refresh_event),
                cache_clearing_enabled :=
                  decide (traversal.event_type = event_type_id.refresh_event) },
            timing :=
              { tick_counter :=
                  match tick_source with
                  | some ticks => ticks
                  | none => default_tick_count } }, ?_, rfl, ?_⟩
  · have h := route_event__enough_depth default_tick_count
      { data := data,
        controller := statement_controller init (before ++ abort_traversal :: after),
        refresh_needed := refresh_needed, tick_source := tick_source }
      chain fuel target traversal hchain hfuel
    simp only [route_event, h, invoke_controller, statement_controller]
    rw [run_statements_append before _ _ (hreached _)]
    simp [run_statements, abort_traversal]
  · simp only [statement_controller]
    rw [run_statements_append before _ _ (hreached _)]
    simp [run_statements, abort_traversal]

/-- The statement of C13 at a controller that counts to 1, aborts, and would count further. -/
theorem route_event_catches_abort_witness :
    is_parent_chain (fun _ => none) none []
      ∧ (∀ ctx : context,
          (run_statements [fun n : Nat => (n + 1, none)] ((fun _ : context => 0) ctx)).2 = none)
      ∧ ∃ ctx : context,
          route_event 0 0
              { data := { regions := fun _ => none },
                controller := statement_controller (fun _ => 0)
                  ([fun n : Nat => (n + 1, none)]
                    ++ abort_traversal :: [fun n : Nat => (n + 10, none)]),
                refresh_needed := false, tick_source := none }
              { active_region := none, targeted := false, path_to_target := [],
                event_type := event_type_id.refresh_event }
              none
            = some { effects :=
                      (run_statements [fun n : Nat => (n + 1, none)]
                        ((fun _ : context => 0) ctx)).1,
                     raised := none }
          ∧ (run_statements [fun n : Nat => (n + 1, none)] ((fun _ : context => 0) ctx)).1
            = 1 :=
  ⟨trivial, fun _ => rfl,
    (route_event_catches_abort 0 { regions := fun _ => none } (fun _ => 0)
      [fun n : Nat => (n + 1, none)] [fun n : Nat => (n + 10, none)] false none
      { active_region := none, targeted := false, path_to_target := [],
        event_type := event_type_id.refresh_event }
      none [] 0 trivial (Nat.le_refl 0) (fun _ => rfl)).imp (fun _ h => ⟨h.1, rfl⟩)⟩

/-- C14: when the controller ends by raising a condition other than `traversal_aborted`,
`route_event` hands that same condition (with what the controller did) on to its caller. -/
theorem route_event_propagates_other {ρ : Type} (default_tick_count : Nat) (sys : system ρ)
    (traversal : event_traversal) (target : Option region_id) (chain : List region_id)
    (fuel : Nat) (e : exception)
    (hchain : is_parent_chain sys.data.regions target chain) (hfuel : chain.length ≤ fuel)
    (hraised : (invoke_controller default_tick_count sys
        { traversal with path_to_target := chain.reverse ++ traversal.path_to_target }).raised
      = some e)
    (hother : e ≠ exception.traversal_aborted) :
    ∃ outcome,
      route_event default_tick_count fuel sys traversal target = some outcome
        ∧ outcome.raised = some e
        ∧ outcome = invoke_controller default_tick_count sys
            { traversal with path_to_target := chain.reverse ++ traversal.path_to_target } := by
  have h := route_event__enough_depth default_tick_count sys chain fuel target traversal
    hchain hfuel
  refine ⟨_, ?_, hraised, rfl⟩
  simp only [route_event, h]
  rw [hraised]
  cases e with
  | out_of_range => rfl
  | traversal_aborted => exact absurd rfl hother
  | other code => rfl

/-- The statement of C14 at a controller that raises condition 3 after counting to 1. -/
theorem route_event_propagates_other_witness :
    (route_event 0 0
        { data := { regions := fun _ => none },
          controller := statement_controller (fun _ => 0)
            [fun n : Nat => (n + 1, none), fun n : Nat => (n, some (exception.other 3))],
          refresh_needed := false, tick_source := none }
        { active_region := none, targeted := false, path_to_target := [],
          event_type := event_type_id.refresh_event }
        none).map (fun o => (o.effects, o.raised)) = some (1, some (exception.other 3))
      ∧ ∃ outcome,
          route_event 0 0
              { data := { regions := fun _ => none },
                controller := statement_controller (fun _ => 0)
                  [fun n : Nat => (n + 1, none),
                    fun n : Nat => (n, some (exception.other 3))],
                refresh_needed := false, tick_source := none }
              { active_region := none, targeted := false, path_to_target := [],
                event_type := event_type_id.refresh_event }
              none
            = some outcome
          ∧ outcome.raised = some (exception.other 3) :=
  ⟨by decide,
    (route_event_propagates_other 0
      { data := { regions := fun _ => none },
        controller := statement_controller (fun _ => 0)
          [fun n : Nat => (n + 1, none), fun n : Nat => (n, some (exception.other 3))],
        refresh_needed := false, tick_source := none }
      { active_region := none, targeted := false, path_to_target := [],
        event_type := event_type_id.refresh_event }
      none [] 0 (exception.other 3) trivial (Nat.le_refl 0) rfl (by decide)).imp
      (fun _ h => ⟨h.1, h.2.1⟩)⟩

/-! ## Identity and failure of `apply` -/

/-- With every input ready and a wrapped function that returns, the signal `apply` returns
carries the result and the identity of the record it leaves, which records the current input
identities. -/
theorem apply_ready_record {ι α β : Type} [DecidableEq ι] (node : Option (apply_record ι β))
    (g : List α → β) (inputs : List (signal ι α))
    (hready : inputs.all signal_has_value = true) :
    ∃ record, (apply node (fun args => Except.ok (g args)) inputs).node = some record
      ∧ record.input_ids = inputs.map (fun s => s.value_id)
      ∧ (apply node (fun args => Except.ok (g args)) inputs).result.value_id = record.result_id
      ∧ (apply node (fun args => Except.ok (g args)) inputs).result.value
        = some record.result := by
  cases node with
  | none => simp [apply, hready]
  | some record =>
    by_cases h : record.input_ids = inputs.map (fun s => s.value_id)
    · simp [apply, hready, h]
    · simp [apply, hready, h]

/-- C15: for two consecutive traversals calling `apply` at one position with readable inputs
(and `f` returning), the identity of the second result equals the identity of the first when
every input identity is unchanged, and then `f` is not invoked again; it differs from the
identity of the first when an input identity changed, and then `f` is invoked once. -/
theorem apply_result_id_tracks_inputs {ι α β : Type} [DecidableEq ι]
    (node : Option (apply_record ι β)) (g : List α → β) (first second : List (signal ι α))
    (hfirst : first.all signal_has_value = true)
    (hsecond : second.all signal_has_value = true) :
    (second.map (fun s => s.value_id) = first.map (fun s => s.value_id) →
        (apply (apply node (fun args => Except.ok (g args)) first).node
            (fun args => Except.ok (g args)) second).result.value_id
          = (apply node (fun args => Except.ok (g args)) first).result.value_id
        ∧ (apply (apply node (fun args => Except.ok (g args)) first).node
            (fun args => Except.ok (g args)) second).calls = 0)
      ∧ (second.map (fun s => s.value_id) ≠ first.map (fun s => s.value_id) →
        (apply (apply node (fun args => Except.ok (g args)) first).node
            (fun args => Except.ok (g args)) second).result.value_id
          ≠ (apply node (fun args => Except.ok (g args)) first).result.value_id
        ∧ (apply (apply node (fun args => Except.ok (g args)) first).node
            (fun args => Except.ok (g args)) second).calls = 1) := by
  obtain ⟨record, hnode, hids, hid, _⟩ := apply_ready_record node g first hfirst
  rw [hnode, hid]
  constructor
  · intro hsame
    have h : record.input_ids = second.map (fun s => s.value_id) := by rw [hids, hsame]
    simp [apply, hsecond, h]
  · intro hdiff
    have h : ¬ record.input_ids = second.map (fun s => s.value_id) := by
      rw [hids]; exact fun h => hdiff h.symm
    simp [apply, hsecond, h]

/-- The statement of C15 at the traversals (1, 2) then (1, 2), and (1, 2) then (2, 2), of the
test "simple apply". -/
theorem apply_result_id_tracks_inputs_witness :
    ([value (1 : Int), value 2].all signal_has_value = true)
      ∧ ((apply (apply (none : Option (apply_record Int Int))
            (fun args => Except.ok ((fun a : List Int => a.headD 0 * 2 + a.getLastD 0) args))
            [value 1, value 2]).node
          (fun args => Except.ok ((fun a : List Int => a.headD 0 * 2 + a.getLastD 0) args))
          [value 1, value 2]).result.value_id
        = (apply (none : Option (apply_record Int Int))
            (fun args => Except.ok ((fun a : List Int => a.headD 0 * 2 + a.getLastD 0) args))
            [value 1, value 2]).result.value_id)
      ∧ ((apply (apply (none : Option (apply_record Int Int))
            (fun args => Except.ok ((fun a : List Int => a.headD 0 * 2 + a.getLastD 0) args))
            [value 1, value 2]).node
          (fun args => Except.ok ((fun a : List Int => a.headD 0 * 2 + a.getLastD 0) args))
          [value 2, value 2]).result.value_id
        ≠ (apply (none : Option (apply_record Int Int))
            (fun args => Except.ok ((fun a : List Int => a.headD 0 * 2 + a.getLastD 0) args))
            [value 1, value 2]).result.value_id) :=
  ⟨by decide,
    ((apply_result_id_tracks_inputs none (fun a : List Int => a.headD 0 * 2 + a.getLastD 0)
      [value 1, value 2] [value 1, value 2] (by decide) (by decide)).1 rfl).1,
    ((apply_result_id_tracks_inputs none (fun a : List Int => a.headD 0 * 2 + a.getLastD 0)
      [value 1, value 2] [value 2, value 2] (by decide) (by decide)).2 (by decide)).1⟩

/-- C16: when every input of `apply` has a value and `f`, invoked because the node holds no
record of these input identities, raises, the resulting signal has no value; `f` was invoked
once and the record is left as it was. -/
theorem apply_failed_no_value {ι α β : Type} [DecidableEq ι]
    (node : Option (apply_record ι β)) (f : List α → Except exception β)
    (inputs : List (signal ι α)) (e : exception)
    (hready : inputs.all signal_has_value = true)
    (hinvoked : node.map (fun r => r.input_ids) ≠ some (inputs.map (fun s => s.value_id)))
    (hraises : f (inputs.filterMap (fun s => s.value)) = Except.error e) :
    signal_has_value (apply node f inputs).result = false
      ∧ (apply node f inputs).calls = 1
      ∧ (apply node f inputs).node = node := by
  cases node with
  | none => simp [apply, hready, hraises, signal_has_value]
  | some record =>
    have h : ¬ record.input_ids = inputs.map (fun s => s.value_id) := by
      simpa using hinvoked
    simp [apply, hready, hraises, signal_has_value, h]

/-- The statement of C16 at the test "failed apply": a fresh node, `value(1)` and `value(2)`,
and an `f` that always raises. -/
theorem apply_failed_no_value_witness :
    ([value (1 : Int), value 2].all signal_has_value = true)
      ∧ signal_has_value (apply (none : Option (apply_record Int Int))
          (fun _ : List Int => (Except.error (exception.other 0) : Except exception Int))
          [value 1, value 2]).result = false
      ∧ (apply (none : Option (apply_record Int Int))
          (fun _ : List Int => (Except.error (exception.other 0) : Except exception Int))
          [value 1, value 2]).calls = 1 :=
  ⟨by decide,
    (apply_failed_no_value none
      (fun _ : List Int => (Except.error (exception.other 0) : Except exception Int))
      [value 1, value 2] (exception.other 0) (by decide) (by decide) rfl).1,
    (apply_failed_no_value none
      (fun _ : List Int => (Except.error (exception.other 0) : Except exception Int))
      [value 1, value 2] (exception.other 0) (by decide) (by decide) rfl).2.1⟩

/-- The keys of a map after an assignment are the assigned key and the keys before. -/
theorem map_assign_keys {K V : Type} [LinearOrder K] (key : K) (mapped : V) :
    ∀ (entries : List (K × V)) (b : K), b ∈ (map_assign key mapped entries).map Prod.fst →
      b = key ∨ b ∈ entries.map Prod.fst := by
  intro entries
  induction entries with
  | nil => intro b hb; simpa [map_assign] using hb
  | cons entry rest ih =>
    intro b hb
    simp only [map_assign] at hb
    split_ifs at hb with h1 h2
    · simp only [List.map_cons, List.mem_cons] at hb ⊢
      rcases hb with hb | hb | hb
      · exact Or.inl hb
      · exact Or.inr (Or.inl hb)
      · exact Or.inr (Or.inr hb)
    · simp only [List.map_cons, List.mem_cons] at hb ⊢
      rcases hb with hb | hb
      · exact Or.inl hb
      · exact Or.inr (Or.inr hb)
    · simp only [List.map_cons, List.mem_cons] at hb ⊢
      rcases hb with hb | hb
      · exact Or.inr (Or.inl hb)
      · rcases ih b hb with h | h
        · exact Or.inl h
        · exact Or.inr (Or.inr h)

/-- An assignment keeps the entries of a map in key order. -/
theorem map_assign_sorted {K V : Type} [LinearOrder K] (key : K) (mapped : V) :
    ∀ (entries : List (K × V)), (entries.map Prod.fst).Sorted (fun a b => a < b) →
      ((map_assign key mapped entries).map Prod.fst).Sorted (fun a b => a < b) := by
  intro entries
  induction entries with
  | nil => intro _; simp [map_assign]
  | cons entry rest ih =>
    intro hsorted
    simp only [List.map_cons, List.sorted_cons] at hsorted
    simp only [map_assign]
    split_ifs with h1 h2
    · simp only [List.map_cons, List.sorted_cons, List.mem_cons]
      refine ⟨?_, hsorted.1, hsorted.2⟩
      rintro b (rfl | hb)
      · exact h1
      · exact lt_trans h1 (hsorted.1 b hb)
    · simp only [List.map_cons, List.sorted_cons]
      exact ⟨fun b hb => h2 ▸ hsorted.1 b hb, hsorted.2⟩
    · simp only [List.map_cons, List.sorted_cons]
      refine ⟨?_, ih hsorted.2⟩
      intro b hb
      rcases map_assign_keys key mapped rest b hb with rfl | hb
      · exact lt_of_le_of_ne (not_lt.mp h1) (fun h => h2 h.symm)
      · exact hsorted.1 b hb

/-- One step of the loop of `for_each`. -/
theorem for_each_items_cons {κ α γ β : Type} [DecidableEq κ] [DecidableEq γ]
    (f : List γ → Except exception β) (input : α → γ)
    (nodes : node_key κ → Option (apply_record γ β)) (key : node_key κ) (x : α)
    (rest : List (node_key κ × α)) :
    (for_each_items f input nodes ((key, x) :: rest)).calls
        = (apply (nodes key) f [value (input x)]).calls
          + (for_each_items f input
              (Function.update nodes key (apply (nodes key) f [value (input x)]).node)
              rest).calls
      ∧ (for_each_items f input nodes ((key, x) :: rest)).results
        = (apply (nodes key) f [value (input x)]).result
          :: (for_each_items f input
              (Function.update nodes key (apply (nodes key) f [value (input x)]).node)
              rest).results
      ∧ (for_each_items f input nodes ((key, x) :: rest)).nodes
        = (for_each_items f input
            (Function.update nodes key (apply (nodes key) f [value (input x)]).node)
            rest).nodes :=
  ⟨rfl, rfl, rfl⟩

/-- The first visit of a node: the function is invoked once and the signal carries its
result. -/
theorem apply_value_first {γ β : Type} [DecidableEq γ] (g : List γ → β) (c : γ) :
    (apply (none : Option (apply_record γ β)) (fun args => Except.ok (g args)) [value c]).calls
        = 1
      ∧ (apply (none : Option (apply_record γ β)) (fun args => Except.ok (g args))
          [value c]).result.value = some (g [c]) := by
  simp [apply, value, signal_has_value]

/-- A pass over a map whose nodes hold the records of its entries, after a key without node was
assigned: the function is invoked once, the results come in the order of the entries, and the
nodes of the entries that were there are left as they were. -/
theorem for_each_map_assign_new {κ γ β K V : Type} [DecidableEq κ] [DecidableEq γ]
    [LinearOrder K] (key_id : K → κ) (hinj : Function.Injective key_id) (g : List γ → β)
    (key_input : K → γ) (key : K) (mapped : V) :
    ∀ (entries : List (K × V)) (nodes : node_key κ → Option (apply_record γ β)),
      (∀ entry ∈ entries,
        remembers g nodes (node_key.identity (key_id entry.1)) (key_input entry.1)) →
      key ∉ entries.map Prod.fst → nodes (node_key.identity (key_id key)) = none →
      (for_each_map key_id (fun args => Except.ok (g args)) key_input nodes
          (map_assign key mapped entries)).calls = 1
        ∧ (for_each_map key_id (fun args => Except.ok (g args)) key_input nodes
            (map_assign key mapped entries)).results.map (fun s => s.value)
          = (map_assign key mapped entries).map (fun entry => some (g [key_input entry.1]))
        ∧ (∀ entry ∈ entries,
            (for_each_map key_id (fun args => Except.ok (g args)) key_input nodes
              (map_assign key mapped entries)).nodes (node_key.identity (key_id entry.1))
            = nodes (node_key.identity (key_id entry.1))) := by
  intro entries
  induction entries with
  | nil =>
    intro nodes _ _ hnone
    simp [for_each_map, for_each_map_keys, map_assign, for_each_items, hnone, apply, value,
      signal_has_value]
  | cons head rest ih =>
    intro nodes hall hnew hnone
    simp only [List.map_cons, List.mem_cons, not_or] at hnew
    have hne : ¬ key = head.1 := hnew.1
    have hother : ∀ entry ∈ head :: rest,
        (node_key.identity (key_id entry.1) : node_key κ) ≠ node_key.identity (key_id key) := by
      intro entry hentry h
      injection h with h
      have := hinj h
      rcases List.mem_cons.mp hentry with rfl | hmem
      · exact hne this.symm
      · exact hnew.2 (this ▸ List.mem_map_of_mem Prod.fst hmem)
    by_cases hlt : key < head.1
    · -- the new entry comes first
      have hrem : ∀ p ∈ for_each_map_keys key_id (head :: rest),
          remembers g
            (Function.update nodes (node_key.identity (key_id key))
              (apply (nodes (node_key.identity (key_id key))) (fun args => Except.ok (g args))
                [value (key_input (key, mapped).1)]).node) p.1 (key_input p.2.1) := by
        intro p hp
        simp only [for_each_map_keys, List.mem_map] at hp
        obtain ⟨entry, hentry, rfl⟩ := hp
        unfold remembers
        rw [Function.update_noteq (hother entry hentry)]
        exact hall entry hentry
      obtain ⟨r1, r2, r3⟩ := for_each_items_reuse g (fun entry : K × V => key_input entry.1)
        (for_each_map_keys key_id (head :: rest)) _ hrem
      obtain ⟨c1, c2, c3⟩ := for_each_items_cons (fun args => Except.ok (g args))
        (fun entry : K × V => key_input entry.1) nodes (node_key.identity (key_id key))
        (key, mapped) (for_each_map_keys key_id (head :: rest))
      have hstep : map_assign key mapped (head :: rest) = (key, mapped) :: head :: rest := by
        simp [map_assign, hlt]
      have hkeys : for_each_map_keys key_id ((key, mapped) :: head :: rest)
          = (node_key.identity (key_id key), (key, mapped))
            :: for_each_map_keys key_id (head :: rest) := rfl
      rw [hstep]
      unfold for_each_map
      rw [hkeys, c1, c2, c3, r1, r2, List.map_cons, r3, hnone]
      obtain ⟨f1, f2⟩ := apply_value_first (β := β) g (key_input key)
      refine ⟨by rw [f1], ?_, ?_⟩
      · rw [f2]
        simp [for_each_map_keys, List.map_map, Function.comp_def]
      · intro entry hentry
        rw [Function.update_noteq (hother entry hentry)]
    · -- the first entry stays first
      have hstep : map_assign key mapped (head :: rest)
          = head :: map_assign key mapped rest := by
        simp [map_assign, hlt, hne]
      obtain ⟨record, hnode, hids, hres⟩ := hall head (by simp)
      obtain ⟨h1, h2, h3⟩ := apply_value_reuse g (nodes (node_key.identity (key_id head.1)))
        (key_input head.1) record hnode hids hres
      have hupd : Function.update nodes (node_key.identity (key_id head.1))
          (apply (nodes (node_key.identity (key_id head.1))) (fun args => Except.ok (g args))
            [value (key_input head.1)]).node = nodes := by
        rw [h1]; exact Function.update_eq_self _ nodes
      obtain ⟨i1, i2, i3⟩ := ih nodes (fun entry hentry => hall entry (by simp [hentry]))
        hnew.2 hnone
      obtain ⟨c1, c2, c3⟩ := for_each_items_cons (fun args => Except.ok (g args))
        (fun entry : K × V => key_input entry.1) nodes (node_key.identity (key_id head.1))
        head (for_each_map_keys key_id (map_assign key mapped rest))
      have hkeys : for_each_map_keys key_id (head :: map_assign key mapped rest)
          = (node_key.identity (key_id head.1), head)
            :: for_each_map_keys key_id (map_assign key mapped rest) := rfl
      rw [hstep]
      unfold for_each_map at i1 i2 i3 ⊢
      rw [hkeys, c1, c2, c3, hupd, h2, i1, List.map_cons, h3, i2]
      refine ⟨rfl, rfl, ?_⟩
      intro entry hentry
      rcases List.mem_cons.mp hentry with rfl | hmem
      · by_cases hk : (node_key.identity (key_id entry.1) : node_key κ)
            ∈ (for_each_map_keys key_id (map_assign key mapped rest)).map Prod.fst
        · simp only [for_each_map_keys, List.map_map, List.mem_map, Function.comp_apply] at hk
          obtain ⟨other, hmem, hko⟩ := hk
          injection hko with hko
          have hsame := hinj hko
          rcases map_assign_keys key mapped rest other.1
            (List.mem_map_of_mem Prod.fst hmem) with h | h
          · exact absurd (h.symm.trans hsame) hne
          · obtain ⟨old, hold, hfst⟩ := List.mem_map.mp h
            have := i3 old hold
            rw [hfst, hsame] at this
            exact this
        · exact for_each_items_frame _ _ _ _ _ hk
      · exact i3 entry hmem

/-- C18: for a map iterated by `for_each`, every entry's node is keyed by the map key; after one
new key is inserted (a key without node) and the map is traversed again, the memoized per-key
function is invoked exactly once more, the nodes of the existing keys are left as they were,
and the entries are visited in the key order of the map. -/
theorem for_each_map_insert_one_call {κ γ β K V : Type} [DecidableEq κ] [DecidableEq γ]
    [LinearOrder K] (key_id : K → κ) (g : List γ → β) (key_input : K → γ)
    (nodes : node_key κ → Option (apply_record γ β)) (entries : List (K × V)) (key : K)
    (mapped : V) (hinj : Function.Injective key_id) (hcoherent : coherent g nodes)
    (hsorted : (entries.map Prod.fst).Sorted (fun a b => a < b))
    (hnew : key ∉ entries.map Prod.fst)
    (hfresh : nodes (node_key.identity (key_id key)) = none) :
    (for_each_map key_id (fun args => Except.ok (g args)) key_input
        (for_each_map key_id (fun args => Except.ok (g args)) key_input nodes entries).nodes
        (map_assign key mapped entries)).calls = 1
      ∧ (for_each_map_keys key_id (map_assign key mapped entries)).map Prod.fst
        = (map_assign key mapped entries).map (fun entry => node_key.identity (key_id entry.1))
      ∧ ((map_assign key mapped entries).map Prod.fst).Sorted (fun a b => a < b)
      ∧ (for_each_map key_id (fun args => Except.ok (g args)) key_input
          (for_each_map key_id (fun args => Except.ok (g args)) key_input nodes entries).nodes
          (map_assign key mapped entries)).results.map (fun s => s.value)
        = (map_assign key mapped entries).map (fun entry => some (g [key_input entry.1]))
      ∧ (∀ entry ∈ entries,
          (for_each_map key_id (fun args => Except.ok (g args)) key_input
            (for_each_map key_id (fun args => Except.ok (g args)) key_input nodes
              entries).nodes
            (map_assign key mapped entries)).nodes (node_key.identity (key_id entry.1))
          = (for_each_map key_id (fun args => Except.ok (g args)) key_input nodes
              entries).nodes (node_key.identity (key_id entry.1))) := by
  have hidinj : Function.Injective (fun k : K => (node_key.identity (key_id k) : node_key κ)) :=
    fun a b h => by
      simp only [node_key.identity.injEq] at h
      exact hinj h
  have hkeys : ((for_each_map_keys key_id entries).map Prod.fst).Nodup := by
    have := List.Nodup.map hidinj hsorted.nodup
    simpa [for_each_map_keys, List.map_map, Function.comp_def] using this
  have hall : ∀ entry ∈ entries,
      remembers g
        (for_each_map key_id (fun args => Except.ok (g args)) key_input nodes entries).nodes
        (node_key.identity (key_id entry.1)) (key_input entry.1) := by
    intro entry hentry
    exact for_each_items_remembers g (fun entry : K × V => key_input entry.1)
      (for_each_map_keys key_id entries) nodes hcoherent hkeys
      (node_key.identity (key_id entry.1), entry)
      (List.mem_map.mpr ⟨entry, hentry, rfl⟩)
  have hnone : (for_each_map key_id (fun args => Except.ok (g args)) key_input nodes
      entries).nodes (node_key.identity (key_id key)) = none := by
    unfold for_each_map
    rw [for_each_items_frame, hfresh]
    intro hk
    simp only [for_each_map_keys, List.map_map, List.mem_map, Function.comp_apply] at hk
    obtain ⟨entry, hentry, hke⟩ := hk
    exact hnew (hidinj hke ▸ List.mem_map_of_mem Prod.fst hentry)
  obtain ⟨h1, h2, h3⟩ := for_each_map_assign_new key_id hinj g key_input key mapped entries
    _ hall hnew hnone
  refine ⟨h1, ?_, map_assign_sorted key mapped entries hsorted, h2, h3⟩
  simp [for_each_map_keys, List.map_map, Function.comp_def]

/-- The statement of C18 at a map like that of the test "simple map": three keys 20, 30, 60
(bar, baz, foo in key order), then key 10 (alpha) inserted; the first traversal makes 3 calls,
the one after the insertion 1, visiting 10, 20, 30, 60. -/
theorem for_each_map_insert_one_call_witness :
    Function.Injective (fun k : Nat => k)
      ∧ ([((20 : Nat), (0 : Int)), (30, 3), (60, 2)].map Prod.fst).Sorted (fun a b => a < b)
      ∧ 10 ∉ [((20 : Nat), (0 : Int)), (30, 3), (60, 2)].map Prod.fst
      ∧ (for_each_map (fun k : Nat => k)
          (fun args => Except.ok ((fun a : List Nat => a.headD 0) args))
          (fun k : Nat => k) (fun _ => none)
          [((20 : Nat), (0 : Int)), (30, 3), (60, 2)]).calls = 3
      ∧ map_assign 10 (1 : Int) [((20 : Nat), 0), (30, 3), (60, 2)]
        = [(10, 1), (20, 0), (30, 3), (60, 2)]
      ∧ (for_each_map (fun k : Nat => k)
          (fun args => Except.ok ((fun a : List Nat => a.headD 0) args))
          (fun k : Nat => k)
          (for_each_map (fun k : Nat => k)
            (fun args => Except.ok ((fun a : List Nat => a.headD 0) args))
            (fun k : Nat => k) (fun _ => none)
            [((20 : Nat), (0 : Int)), (30, 3), (60, 2)]).nodes
          (map_assign 10 (1 : Int) [((20 : Nat), 0), (30, 3), (60, 2)])).calls = 1 :=
  ⟨fun _ _ h => h, by decide, by decide, by decide, by decide,
    (for_each_map_insert_one_call (fun k : Nat => k)
      (fun a : List Nat => a.headD 0) (fun k : Nat => k) (fun _ => none)
      [((20 : Nat), (0 : Int)), (30, 3), (60, 2)] 10 1
      (fun _ _ h => h) (fun _ _ h => by simp at h) (by decide) (by decide) rfl).1⟩

/-! ## `for_each` with writable handles, and `lazy_apply` -/

/-- C19: with a writable element handle, what the body writes through the handle of an element
is stored in that element of the source collection and nowhere else; after a body that writes
`v` to every element the collection has the same length and every element equals `v`. -/
theorem for_each_writing_stores_in_place {α : Type} (body : α → Option α)
    (collection : container α) (v : α) :
    (for_each_writing body collection).contents
        = collection.contents.map (fun x => (body x).getD x)
      ∧ (for_each_writing body collection).contents.length = collection.contents.length
      ∧ (for_each_writing (fun _ => some v) collection).contents.length
        = collection.contents.length
      ∧ (∀ x ∈ (for_each_writing (fun _ => some v) collection).contents, x = v)
      ∧ (for_each_writing (fun _ => some v) collection).contents
        = List.replicate collection.contents.length v
      ∧ (for_each_writing (fun _ => none) collection) = collection := by
  cases collection with
  | vector items =>
    simp [for_each_writing, container.contents, List.eq_replicate_iff]
  | list nodes =>
    simp [for_each_writing, container.contents, List.map_map, Function.comp_def,
      List.eq_replicate_iff]

/-- C20: `lazy_apply(f, inputs...)` has a value exactly when every input has a value, and then
reading it gives `f` applied to the inputs' current values; over `value(1)` and `value(6)`
with `f i j = i + j` it reads 7. -/
theorem lazy_apply_value {ι α β : Type} (f : List α → β) (inputs : List (signal ι α))
    (values : List α) :
    (signal_has_value (lazy_apply f inputs) = true
        ↔ ∀ s ∈ inputs, signal_has_value s = true)
      ∧ (∀ y, (lazy_apply f inputs).value = some y →
          y = f (inputs.filterMap (fun s => s.value)))
      ∧ (lazy_apply f (values.map value)).value = some (f values)
      ∧ (lazy_apply (fun args : List Int => args.sum) [value 1, value 6]).value = some 7
      ∧ (lazy_apply (fun args : List Int => 2 * args.sum) [value 1]).value = some 2 := by
  refine ⟨?_, ?_, ?_, by decide, by decide⟩
  · have hsame : signal_has_value (lazy_apply f inputs) = inputs.all signal_has_value := by
      cases h : inputs.all signal_has_value
      · simp [lazy_apply, h, signal_has_value]
      · simp [lazy_apply, h, signal_has_value]
    rw [hsame, List.all_eq_true]
  · intro y hy
    by_cases h : inputs.all signal_has_value = true
    · simp only [lazy_apply, h, if_true, Option.some.injEq] at hy
      exact hy.symm
    · simp [lazy_apply, h] at hy
  · have hall : (values.map (value : α → signal α α)).all signal_has_value = true := by
      simp [List.all_eq_true, value, signal_has_value]
    have hargs : (values.map (value : α → signal α α)).filterMap (fun s => s.value)
        = values := by
      induction values with
      | nil => rfl
      | cons x xs ih =>
        have : (xs.map (value : α → signal α α)).all signal_has_value = true := by
          simp [List.all_eq_true, value, signal_has_value]
        simp only [List.map_cons, List.filterMap_cons, value]
        simpa [value] using ih this
    simp only [lazy_apply, hall, if_true, hargs]

/-! ## Identities of `lazy_apply`, and the lifted forms -/

/-- C21: when the value identities of the inputs of two `lazy_apply` signals differ in at least
one position, the value identities of the two results differ; the signals over (1, 6), (2, 6)
and (1, 0) have pairwise different identities. -/
theorem lazy_apply_ids_differ {ι α β : Type} (f g : List α → β)
    (first second : List (signal ι α))
    (hdiffer : ∃ i : Nat,
      (first[i]?).map (fun s => s.value_id) ≠ (second[i]?).map (fun s => s.value_id)) :
    (lazy_apply f first).value_id ≠ (lazy_apply g second).value_id := by
  obtain ⟨i, hi⟩ := hdiffer
  intro h
  apply hi
  have h2 : first.map (fun s => s.value_id) = second.map (fun s => s.value_id) := h
  have h3 := congrArg (fun l => l[i]?) h2
  simpa [List.getElem?_map] using h3

/-- The statement of C21 at the signals of the test "lazy_apply". -/
theorem lazy_apply_ids_differ_witness :
    (∃ i : Nat,
        ([value (1 : Int), value 6][i]?).map (fun s => s.value_id)
          ≠ ([value (2 : Int), value 6][i]?).map (fun s => s.value_id))
      ∧ (lazy_apply (fun a : List Int => a.sum) [value 1, value 6]).value_id
        ≠ (lazy_apply (fun a : List Int => a.sum) [value 2, value 6]).value_id
      ∧ (lazy_apply (fun a : List Int => a.sum) [value 1, value 6]).value_id
        ≠ (lazy_apply (fun a : List Int => a.sum) [value 1, value 0]).value_id
      ∧ (lazy_apply (fun a : List Int => a.sum) [value 2, value 6]).value_id
        ≠ (lazy_apply (fun a : List Int => a.sum) [value 1, value 0]).value_id :=
  ⟨⟨0, by decide⟩,
    lazy_apply_ids_differ (fun a : List Int => a.sum) (fun a : List Int => a.sum)
      [value 1, value 6] [value 2, value 6] ⟨0, by decide⟩,
    lazy_apply_ids_differ (fun a : List Int => a.sum) (fun a : List Int => a.sum)
      [value 1, value 6] [value 1, value 0] ⟨1, by decide⟩,
    lazy_apply_ids_differ (fun a : List Int => a.sum) (fun a : List Int => a.sum)
      [value 2, value 6] [value 1, value 0] ⟨0, by decide⟩⟩

/-- C22: `lift(f)(ctx, inputs...)` behaves as `apply(ctx, f, inputs...)`: the same node
afterwards, the same readiness, value and identity of the result, the same number of
invocations of `f`, also over consecutive traversals; and `lazy_lift(f)(inputs...)` is the same
signal as `lazy_apply(f, inputs...)`. In the tests, `lift` of `x + 1` over `value(0)` reads 1
after one call, and `lazy_lift` of `2 * i` over `value(1)` reads 2. -/
theorem lift_behaves_as_apply {ι α β γ : Type} [DecidableEq ι]
    (f : List α → Except exception β) (h : List α → γ) (node : Option (apply_record ι β))
    (inputs : List (signal ι α)) (runs : List (List (signal ι α))) :
    (lift f node inputs).node = (apply node f inputs).node
      ∧ signal_has_value (lift f node inputs).result
        = signal_has_value (apply node f inputs).result
      ∧ (lift f node inputs).result = (apply node f inputs).result
      ∧ (lift f node inputs).calls = (apply node f inputs).calls
      ∧ (lift f node inputs).raised = (apply node f inputs).raised
      ∧ (runs.foldl (fun state run => ((lift f state.1 run).node,
            state.2 + (lift f state.1 run).calls)) (node, 0)
          = runs.foldl (fun state run => ((apply state.1 f run).node,
            state.2 + (apply state.1 f run).calls)) (node, 0))
      ∧ lazy_lift h inputs = lazy_apply h inputs
      ∧ signal_has_value (lazy_lift h inputs) = signal_has_value (lazy_apply h inputs)
      ∧ ((lift (fun a : List Int => (Except.ok (a.sum + 1) : Except exception Int)) none
            [value 0]).result.value = some 1
          ∧ (lift (fun a : List Int => (Except.ok (a.sum + 1) : Except exception Int)) none
            [value 0]).calls = 1)
      ∧ (lazy_lift (fun a : List Int => 2 * a.sum) [value 1]).value = some 2 :=
  ⟨rfl, rfl, rfl, rfl, rfl, rfl, rfl, rfl, by decide, by decide⟩

/-! ## Parent links and the active region -/

/-- What `begin` does to the parent links: the link of the region becomes the active region,
every other link is left alone. -/
theorem begin_store (regions : region_store) (traversal : event_traversal)
    (region : region_id) (is_new : Bool) :
    (scoped_routing_region.begin regions traversal region is_new).1 region
        = traversal.active_region
      ∧ (∀ other, other ≠ region →
          (scoped_routing_region.begin regions traversal region is_new).1 other
            = regions other) := by
  have hfst : (scoped_routing_region.begin regions traversal region is_new).1
      = (match traversal.active_region with
        | some active =>
          if (if is_new then Function.update regions region none else regions) region
              ≠ some active then
            Function.update (if is_new then Function.update regions region none else regions)
              region (some active)
          else (if is_new then Function.update regions region none else regions)
        | none =>
          Function.update (if is_new then Function.update regions region none else regions)
            region none) := by
    unfold scoped_routing_region.begin
    simp only []
    split
    · split
      · split <;> rfl
      · rfl
    · rfl
  rw [hfst]
  constructor
  · cases hact : traversal.active_region with
    | none => simp
    | some active =>
      by_cases hp : (if is_new then Function.update regions region none else regions) region
          = some active
      · simp [hp]
      · simp [hp]
  · intro other hne
    cases hact : traversal.active_region with
    | none => cases is_new <;> simp [Function.update_noteq hne]
    | some active =>
      by_cases hp : (if is_new then Function.update regions region none else regions) region
          = some active
      · cases is_new <;> simp_all [Function.update_noteq hne]
      · cases is_new <;> simp_all [Function.update_noteq hne]

/-- The active region after `end`. -/
theorem end_active (self : scoped_routing_region) (traversal : event_traversal) :
    (self.end_ traversal).2.active_region
      = if self.traversal_ then self.parent_ else traversal.active_region := by
  unfold scoped_routing_region.end_
  split <;> simp_all

/-- Entering a forest of regions leaves the active region as it was. -/
theorem enter_regions_active :
    ∀ (forest : region_forest) (regions : region_store) (traversal : event_traversal),
      (enter_regions forest regions traversal).traversal.active_region
        = traversal.active_region := by
  intro forest
  induction forest with
  | nil => intro regions traversal; rfl
  | node region is_new children siblings _ ihs =>
    intro regions traversal
    have hb := begin_effect regions traversal region is_new
    simp only [enter_regions]
    rw [ihs, end_active, hb.2.2.2.1, if_pos rfl, hb.2.2.1]

/-- Entering a forest of regions changes the parent links of its regions only. -/
theorem enter_regions_frame :
    ∀ (forest : region_forest) (regions : region_store) (traversal : event_traversal)
      (other : region_id), other ∉ forest.ids →
      (enter_regions forest regions traversal).regions other = regions other := by
  intro forest
  induction forest with
  | nil => intro regions traversal other _; rfl
  | node region is_new children siblings ihc ihs =>
    intro regions traversal other hother
    simp only [region_forest.ids, List.mem_cons, List.mem_append, not_or] at hother
    simp only [enter_regions]
    rw [ihs _ _ other hother.2.2, ihc _ _ other hother.2.1,
      (begin_store regions traversal region is_new).2 other hother.1]

/-- Whether parent links record a nesting depends on the links of the nested regions only. -/
theorem nested_as_recorded_congr (links1 links2 : region_store) :
    ∀ (forest : region_forest) (parent : Option region_id),
      (∀ x ∈ forest.ids, links1 x = links2 x) →
      nested_as_recorded links1 parent forest → nested_as_recorded links2 parent forest := by
  intro forest
  induction forest with
  | nil => intro parent _ _; trivial
  | node region is_new children siblings ihc ihs =>
    intro parent hsame h
    simp only [nested_as_recorded] at h ⊢
    refine ⟨?_, ihc _ (fun x hx => hsame x (by simp [region_forest.ids, hx])) h.2.1,
      ihs _ (fun x hx => hsame x (by simp [region_forest.ids, hx])) h.2.2⟩
    rw [← hsame region (by simp [region_forest.ids])]
    exact h.1

/-- After pairwise distinct regions were entered, the parent links record their nesting. -/
theorem enter_regions_records_nesting :
    ∀ (forest : region_forest) (regions : region_store) (traversal : event_traversal),
      forest.ids.Nodup →
      nested_as_recorded (enter_regions forest regions traversal).regions
        traversal.active_region forest := by
  intro forest
  induction forest with
  | nil => intro regions traversal _; trivial
  | node region is_new children siblings ihc ihs =>
    intro regions traversal hnodup
    simp only [region_forest.ids, List.nodup_cons, List.mem_append, not_or,
      List.nodup_append] at hnodup
    obtain ⟨⟨hrc, hrs⟩, hndc, hnds, hdisj⟩ := hnodup
    have hb := begin_effect regions traversal region is_new
    have hstore := begin_store regions traversal region is_new
    have hc := ihc (scoped_routing_region.begin regions traversal region is_new).1
      (scoped_routing_region.begin regions traversal region is_new).2.1 hndc
    rw [hb.2.1] at hc
    have hact : ((scoped_routing_region.begin regions traversal region is_new).2.2.end_
        (enter_regions children (scoped_routing_region.begin regions traversal region is_new).1
          (scoped_routing_region.begin regions traversal region is_new).2.1).traversal).2.active_region
        = traversal.active_region := by
      rw [end_active, hb.2.2.2.1, if_pos rfl, hb.2.2.1]
    have hs := ihs
      (enter_regions children (scoped_routing_region.begin regions traversal region is_new).1
        (scoped_routing_region.begin regions traversal region is_new).2.1).regions
      ((scoped_routing_region.begin regions traversal region is_new).2.2.end_
        (enter_regions children (scoped_routing_region.begin regions traversal region is_new).1
          (scoped_routing_region.begin regions traversal region is_new).2.1).traversal).2 hnds
    rw [hact] at hs
    simp only [nested_as_recorded, enter_regions]
    refine ⟨?_, ?_, hs⟩
    · rw [enter_regions_frame siblings _ _ region hrs,
        enter_regions_frame children _ _ region hrc]
      exact hstore.1
    · refine nested_as_recorded_congr _ _ children (some region) ?_ hc
      intro x hx
      exact (enter_regions_frame siblings _ _ x (fun hxs => hdisj hx hxs)).symm

/-- When parent links record a nesting, the chain of links from a region of the forest lists
the regions open around it, innermost first. -/
theorem open_around_is_chain (links : region_store) :
    ∀ (forest : region_forest) (parent : Option region_id) (enclosing : List region_id)
      (region : region_id) (opened : List region_id),
      nested_as_recorded links parent forest → is_parent_chain links parent enclosing →
      forest.open_around enclosing region = some opened →
      is_parent_chain links (some region) (region :: opened) := by
  intro forest
  induction forest with
  | nil => intro parent enclosing region opened _ _ h; simp [region_forest.open_around] at h
  | node first is_new children siblings ihc ihs =>
    intro parent enclosing region opened hnested hchain hopen
    simp only [nested_as_recorded] at hnested
    simp only [region_forest.open_around] at hopen
    by_cases hr : region = first
    · subst hr
      simp only [if_true, Option.some.injEq] at hopen
      subst hopen
      exact ⟨rfl, by rw [hnested.1]; exact hchain⟩
    · simp only [hr, if_false] at hopen
      cases hco : children.open_around (first :: enclosing) region with
      | some inner =>
        rw [hco] at hopen
        simp only [Option.some.injEq] at hopen
        subst hopen
        exact ihc (some first) (first :: enclosing) region inner hnested.2.1
          ⟨rfl, by rw [hnested.1]; exact hchain⟩ hco
      | none =>
        rw [hco] at hopen
        exact ihs parent enclosing region opened hnested.2.2 hchain hopen

/-- C23: after `begin`, the parent link of the region is the region that was active when
`begin` was called, and empty when none was; so after a traversal that started with no active
region and entered pairwise distinct regions, the chain of parent links from any region
entered lists exactly the regions that were open around it, innermost first. -/
theorem begin_records_parent_chain (forest : region_forest) (regions : region_store)
    (traversal : event_traversal) (hdistinct : forest.ids.Nodup)
    (hroot : traversal.active_region = none) :
    (∀ (links : region_store) (state : event_traversal) (region : region_id) (is_new : Bool),
        (scoped_routing_region.begin links state region is_new).1 region = state.active_region
          ∧ (state.active_region = none →
              (scoped_routing_region.begin links state region is_new).1 region = none))
      ∧ nested_as_recorded (enter_regions forest regions traversal).regions none forest
      ∧ (∀ region opened, forest.open_around [] region = some opened →
          is_parent_chain (enter_regions forest regions traversal).regions (some region)
            (region :: opened)) := by
  have hnested := enter_regions_records_nesting forest regions traversal hdistinct
  rw [hroot] at hnested
  refine ⟨?_, hnested, ?_⟩
  · intro links state region is_new
    have h := (begin_store links state region is_new).1
    exact ⟨h, fun hnone => h.trans hnone⟩
  · intro region opened hopen
    exact open_around_is_chain _ forest none [] region opened hnested trivial hopen

/-- The statement of C23 at a controller with regions 1 ⊃ (2 ⊃ 4, 3) and 5, entered for the
first time: around region 4 the regions 2 and 1 are open, and its chain is 4, 2, 1. -/
theorem begin_records_parent_chain_witness :
    (region_forest.node 1 true
        (region_forest.node 2 true
          (region_forest.node 4 true region_forest.nil region_forest.nil)
          (region_forest.node 3 true region_forest.nil region_forest.nil))
        (region_forest.node 5 true region_forest.nil region_forest.nil)).ids.Nodup
      ∧ (region_forest.node 1 true
          (region_forest.node 2 true
            (region_forest.node 4 true region_forest.nil region_forest.nil)
            (region_forest.node 3 true region_forest.nil region_forest.nil))
          (region_forest.node 5 true region_forest.nil region_forest.nil)).open_around [] 4
        = some [2, 1]
      ∧ is_parent_chain
          (enter_regions
            (region_forest.node 1 true
              (region_forest.node 2 true
                (region_forest.node 4 true region_forest.nil region_forest.nil)
                (region_forest.node 3 true region_forest.nil region_forest.nil))
              (region_forest.node 5 true region_forest.nil region_forest.nil))
            (fun _ => some 9)
            { active_region := none, targeted := false, path_to_target := [],
              event_type := event_type_id.refresh_event }).regions
          (some 4) (4 :: [2, 1]) :=
  ⟨by decide, by decide,
    (begin_records_parent_chain
      (region_forest.node 1 true
        (region_forest.node 2 true
          (region_forest.node 4 true region_forest.nil region_forest.nil)
          (region_forest.node 3 true region_forest.nil region_forest.nil))
        (region_forest.node 5 true region_forest.nil region_forest.nil))
      (fun _ => some 9)
      { active_region := none, targeted := false, path_to_target := [],
        event_type := event_type_id.refresh_event }
      (by decide) rfl).2.2 4 [2, 1] (by decide)⟩

/-- C24: `begin` makes the region the active region; the matching `end` restores
`active_region` to what it was immediately before that `begin`, whatever was begun and ended
in between, so a properly nested sequence of `begin`/`end` pairs leaves `active_region`
unchanged; `end` leaves `targeted` and `path_to_target` alone; a second `end`, or an `end` on
an object that was never begun (its `traversal_` is null), changes nothing. -/
theorem end_restores_active_region (regions : region_store) (traversal : event_traversal)
    (region : region_id) (is_new : Bool) :
    (scoped_routing_region.begin regions traversal region is_new).2.1.active_region
        = some region
      ∧ (∀ later : event_traversal,
          ((scoped_routing_region.begin regions traversal region is_new).2.2.end_
            later).2.active_region = traversal.active_region
          ∧ ((scoped_routing_region.begin regions traversal region is_new).2.2.end_
            later).2.targeted = later.targeted
          ∧ ((scoped_routing_region.begin regions traversal region is_new).2.2.end_
            later).2.path_to_target = later.path_to_target)
      ∧ (∀ children : region_forest,
          ((scoped_routing_region.begin regions traversal region is_new).2.2.end_
            (enter_regions children
              (scoped_routing_region.begin regions traversal region is_new).1
              (scoped_routing_region.begin regions traversal region is_new).2.1).traversal
            ).2.active_region = traversal.active_region)
      ∧ (∀ forest : region_forest,
          (enter_regions forest regions traversal).traversal.active_region
            = traversal.active_region)
      ∧ (∀ later again : event_traversal,
          ((scoped_routing_region.begin regions traversal region is_new).2.2.end_
              later).1.end_ again
            = (((scoped_routing_region.begin regions traversal region is_new).2.2.end_
              later).1, again))
      ∧ (∀ (unbegun : scoped_routing_region) (state : event_traversal),
          unbegun.traversal_ = false → unbegun.end_ state = (unbegun, state)) := by
  have hb := begin_effect regions traversal region is_new
  have hend : ∀ later : event_traversal,
      ((scoped_routing_region.begin regions traversal region is_new).2.2.end_
        later).2.active_region = traversal.active_region := by
    intro later
    rw [end_active, hb.2.2.2.1, if_pos rfl, hb.2.2.1]
  refine ⟨hb.2.1, ?_, ?_, ?_, ?_, ?_⟩
  · intro later
    exact ⟨hend later, (end_effect _ later).1, (end_effect _ later).2⟩
  · intro children
    exact hend _
  · intro forest
    exact enter_regions_active forest regions traversal
  · intro later again
    simp [scoped_routing_region.end_, hb.2.2.2.1]
  · intro unbegun state hnull
    simp [scoped_routing_region.end_, hnull]

/-! ## `is_prime` -/

/-- For `n ≥ 1`, `round_sqrt n` is the integer `r` with `r (r - 1) < n ≤ r (r + 1)`, that is
with `(r - 1/2)² < n < (r + 1/2)²`; it is at least the integer part of the root. -/
theorem round_sqrt_bounds (n : Int) (hn : 1 ≤ n) :
    1 ≤ round_sqrt n
      ∧ round_sqrt n * (round_sqrt n - 1) < n
      ∧ n ≤ round_sqrt n * (round_sqrt n + 1)
      ∧ (Nat.sqrt n.toNat : Int) ≤ round_sqrt n := by
  have hcast : ((n.toNat : Nat) : Int) = n := Int.toNat_of_nonneg (by omega)
  have hlow : (Nat.sqrt n.toNat : Int) * (Nat.sqrt n.toNat : Int) ≤ n := by
    have := Nat.sqrt_le n.toNat
    have h2 : ((Nat.sqrt n.toNat * Nat.sqrt n.toNat : Nat) : Int) ≤ ((n.toNat : Nat) : Int) :=
      Int.ofNat_le.mpr this
    rw [hcast] at h2
    simpa using h2
  have hhigh : n < ((Nat.sqrt n.toNat : Int) + 1) * ((Nat.sqrt n.toNat : Int) + 1) := by
    have := Nat.lt_succ_sqrt n.toNat
    have h2 : ((n.toNat : Nat) : Int)
        < ((Nat.succ (Nat.sqrt n.toNat) * Nat.succ (Nat.sqrt n.toNat) : Nat) : Int) :=
      Int.ofNat_lt.mpr this
    rw [hcast] at h2
    simpa using h2
  have hs0 : (0 : Int) ≤ (Nat.sqrt n.toNat : Int) := Int.ofNat_nonneg _
  have hs1 : (1 : Int) ≤ (Nat.sqrt n.toNat : Int) := by
    by_contra hlt
    have hz : (Nat.sqrt n.toNat : Int) = 0 := by omega
    rw [hz] at hhigh
    omega
  unfold round_sqrt
  by_cases hc : n.toNat ≤ Nat.sqrt n.toNat * Nat.sqrt n.toNat + Nat.sqrt n.toNat
  · rw [if_pos hc]
    have hc2 : n ≤ (Nat.sqrt n.toNat : Int) * (Nat.sqrt n.toNat : Int)
        + (Nat.sqrt n.toNat : Int) := by
      have h2 : ((n.toNat : Nat) : Int)
          ≤ ((Nat.sqrt n.toNat * Nat.sqrt n.toNat + Nat.sqrt n.toNat : Nat) : Int) :=
        Int.ofNat_le.mpr hc
      rw [hcast] at h2
      simpa using h2
    refine ⟨hs1, ?_, ?_, le_refl _⟩
    · nlinarith
    · nlinarith
  · rw [if_neg hc]
    have hc2 : (Nat.sqrt n.toNat : Int) * (Nat.sqrt n.toNat : Int)
        + (Nat.sqrt n.toNat : Int) < n := by
      have h2 : ((Nat.sqrt n.toNat * Nat.sqrt n.toNat + Nat.sqrt n.toNat : Nat) : Int)
          < ((n.toNat : Nat) : Int) := Int.ofNat_lt.mpr (not_le.mp hc)
      rw [hcast] at h2
      simpa using h2
    refine ⟨by omega, ?_, ?_, by omega⟩
    · nlinarith
    · nlinarith

/-- For `n ≥ 0`, `round_sqrt n` is the integer nearest to the exact square root of `n`. -/
theorem round_sqrt_nearest (n : Int) (hn : 0 ≤ n) :
    |Real.sqrt (n : ℝ) - (round_sqrt n : ℝ)| < 1 / 2 := by
  rcases eq_or_lt_of_le hn with h0 | hpos
  · subst h0
    norm_num [round_sqrt]
  · obtain ⟨h1, h2, h3, _⟩ := round_sqrt_bounds n (by omega)
    have h1r : (1 : ℝ) ≤ (round_sqrt n : ℝ) := by exact_mod_cast h1
    have h2r : (round_sqrt n : ℝ) * ((round_sqrt n : ℝ) - 1) + 1 ≤ (n : ℝ) := by
      have : round_sqrt n * (round_sqrt n - 1) + 1 ≤ n := by omega
      exact_mod_cast this
    have h3r : (n : ℝ) ≤ (round_sqrt n : ℝ) * ((round_sqrt n : ℝ) + 1) := by
      exact_mod_cast h3
    rw [abs_lt]
    constructor
    · have : (round_sqrt n : ℝ) - 1 / 2 < Real.sqrt (n : ℝ) := by
        rw [Real.lt_sqrt (by linarith)]
        nlinarith
      linarith
    · have : Real.sqrt (n : ℝ) < (round_sqrt n : ℝ) + 1 / 2 := by
        rw [Real.sqrt_lt' (by linarith)]
        nlinarith
      linarith

/-- The loop returns true exactly when no `j` from `i` to `sqrt_n` divides `n`. -/
theorem is_prime_loop_iff (n sqrt_n : Int) :
    ∀ (k : Nat) (i : Int), (sqrt_n + 1 - i).toNat = k →
      (is_prime_loop n sqrt_n i = true ↔ ∀ j, i ≤ j → j ≤ sqrt_n → n % j ≠ 0) := by
  intro k
  induction k with
  | zero =>
    intro i hk
    have hi : ¬ i ≤ sqrt_n := by omega
    rw [is_prime_loop, if_neg hi]
    simp only [true_iff]
    intro j h1 h2
    omega
  | succ k ih =>
    intro i hk
    have hi : i ≤ sqrt_n := by omega
    rw [is_prime_loop, if_pos hi]
    by_cases hdiv : n % i = 0
    · rw [if_pos hdiv]
      simp only [Bool.false_eq_true, false_iff, not_forall]
      exact ⟨i, le_refl i, hi, fun h => h hdiv⟩
    · rw [if_neg hdiv, ih (i + 1) (by omega)]
      constructor
      · intro h j h1 h2
        rcases eq_or_lt_of_le h1 with rfl | hlt
        · exact hdiv
        · exact h j (by omega) h2
      · intro h j h1 h2
        exact h j (by omega) h2

/-- For `n ≥ 2` the loop bound is below `n`, and `is_prime` is the loop from 2. -/
theorem is_prime_tests_below (n : Int) (hn : 2 ≤ n) :
    round_sqrt n < n
      ∧ (is_prime n = true ↔ ∀ j, 2 ≤ j → j ≤ round_sqrt n → n % j ≠ 0) := by
  obtain ⟨h1, h2, _, _⟩ := round_sqrt_bounds n (by omega)
  constructor
  · by_contra hge
    have hge2 : n ≤ round_sqrt n := not_lt.mp hge
    nlinarith
  · unfold is_prime
    rw [if_neg (by omega)]
    exact is_prime_loop_iff n (round_sqrt n) _ 2 rfl

/-- C25: with `round(sqrt(n))` the integer nearest to the exact square root, `is_prime(n)`
returns true if and only if `n ≥ 2` and no `d` with `1 < d < n` divides `n` (that is, `n` is a
prime number); it returns false for every `n < 2`, and for `n ≥ 2` every divisor it tests is
at most `round(sqrt(n))`, which is below `n`. -/
theorem is_prime_iff_prime (n : Int) :
    (is_prime n = true ↔ (2 ≤ n ∧ ∀ d : Int, 1 < d → d < n → ¬ d ∣ n))
      ∧ (is_prime n = true ↔ Nat.Prime n.toNat)
      ∧ (n < 2 → is_prime n = false)
      ∧ (2 ≤ n → round_sqrt n < n
          ∧ (is_prime n = true ↔ ∀ j, 2 ≤ j → j ≤ round_sqrt n → n % j ≠ 0))
      ∧ (0 ≤ n → |Real.sqrt (n : ℝ) - (round_sqrt n : ℝ)| < 1 / 2) := by
  have hsmall : n < 2 → is_prime n = false := by
    intro h
    unfold is_prime
    rw [if_pos h]
  have hprime : is_prime n = true ↔ Nat.Prime n.toNat := by
    by_cases hn : n < 2
    · rw [hsmall hn]
      simp only [Bool.false_eq_true, false_iff]
      intro hp
      have := hp.two_le
      omega
    · have hn2 : 2 ≤ n := not_lt.mp hn
      have hcast : ((n.toNat : Nat) : Int) = n := Int.toNat_of_nonneg (by omega)
      obtain ⟨hlt, hloop⟩ := is_prime_tests_below n hn2
      obtain ⟨_, _, _, hfloor⟩ := round_sqrt_bounds n (by omega)
      rw [hloop]
      constructor
      · intro h
        rw [Nat.prime_def_le_sqrt]
        refine ⟨by omega, ?_⟩
        intro k hk2 hks hdvd
        have hk : ((k : Nat) : Int) ∣ n := by
          rw [← hcast]
          exact Int.natCast_dvd_natCast.mpr hdvd
        refine h (k : Int) (by omega) ?_ (Int.emod_eq_zero_of_dvd hk)
        have : ((k : Nat) : Int) ≤ (Nat.sqrt n.toNat : Int) := Int.ofNat_le.mpr hks
        omega
      · intro hp j hj2 hjr hmod
        have hjd : j ∣ n := Int.dvd_iff_emod_eq_zero.mpr hmod
        have hjcast : ((j.toNat : Nat) : Int) = j := Int.toNat_of_nonneg (by omega)
        have hnat : j.toNat ∣ n.toNat := by
          rw [← hjcast, ← hcast] at hjd
          exact Int.natCast_dvd_natCast.mp hjd
        exact (Nat.prime_def_lt'.mp hp).2 j.toNat (by omega) (by omega) hnat
  refine ⟨?_, hprime, hsmall, is_prime_tests_below n, round_sqrt_nearest n⟩
  rw [hprime]
  by_cases hn : n < 2
  · constructor
    · intro hp
      have := hp.two_le
      omega
    · intro h
      omega
  · have hn2 : 2 ≤ n := not_lt.mp hn
    have hcast : ((n.toNat : Nat) : Int) = n := Int.toNat_of_nonneg (by omega)
    rw [Nat.prime_def_lt']
    constructor
    · intro hp
      refine ⟨hn2, ?_⟩
      intro d hd1 hdn hdvd
      have hdcast : ((d.toNat : Nat) : Int) = d := Int.toNat_of_nonneg (by omega)
      have hnat : d.toNat ∣ n.toNat := by
        rw [← hdcast, ← hcast] at hdvd
        exact Int.natCast_dvd_natCast.mp hdvd
      exact hp.2 d.toNat (by omega) (by omega) hnat
    · intro h
      refine ⟨by omega, ?_⟩
      intro m hm2 hmn hdvd
      have hk : ((m : Nat) : Int) ∣ n := by
        rw [← hcast]
        exact Int.natCast_dvd_natCast.mpr hdvd
      exact h.2 (m : Int) (by omega) (by omega) hk

end alia
